import Mathlib

/-!
Verification development for the document ingestion and quality pipeline
(manual-processing service).  The Python sources are shallowly embedded:
strings become `List Char`, floats become `ℚ`, the regex substitutions of
`text_cleaner.py` become explicit left-to-right scanners with the same
match semantics, and the stateful orchestrator becomes explicit state
passing over a job registry.
-/

/-! ## Basic character classes (Python `re` ASCII semantics) -/

/-- Python whitespace class `\s` (and `str.strip` / `str.split` default). -/
def isSpacePy (c : Char) : Bool :=
  c = ' ' || c = '\t' || c = '\n' || c = '\r' || c = '\x0b' || c = '\x0c'

def isDigitPy (c : Char) : Bool := '0' ≤ c && c ≤ '9'

def isAsciiAlpha (c : Char) : Bool :=
  ('a' ≤ c && c ≤ 'z') || ('A' ≤ c && c ≤ 'Z')

/-- Python `\w` word-character class (ASCII fragment). -/
def isWordChar (c : Char) : Bool := isAsciiAlpha c || isDigitPy c || c = '_'

/-- The standalone-consonant class of `text_cleaner.py`
`[bcdfghjklmnpqrstvwxyzBCDFGHJKLMNPQRSTVWXYZ]`. -/
def isConsonant (c : Char) : Bool :=
  isAsciiAlpha c &&
    !(c = 'a' || c = 'e' || c = 'i' || c = 'o' || c = 'u' ||
      c = 'A' || c = 'E' || c = 'I' || c = 'O' || c = 'U')

/-- Python `str.strip`: drop leading and trailing whitespace. -/
def stripL (l : List Char) : List Char :=
  ((l.dropWhile isSpacePy).reverse.dropWhile isSpacePy).reverse

/-- Python `str.lower` (ASCII). -/
def lowerL (l : List Char) : List Char := l.map Char.toLower

/-- Case-insensitive literal matcher: if `l` starts with `pat` (ignoring ASCII
case) return the remainder. -/
def dropLitCI : List Char → List Char → Option (List Char)
  | [], l => some l
  | _ :: _, [] => none
  | p :: ps, c :: cs => if c.toLower = p.toLower then dropLitCI ps cs else none

/-- Exact literal matcher. -/
def dropLit : List Char → List Char → Option (List Char)
  | [], l => some l
  | _ :: _, [] => none
  | p :: ps, c :: cs => if c = p then dropLit ps cs else none

/-- Index of the last `'\n'` in a list, if any. -/
def lastNlIdx (l : List Char) : Option Nat :=
  (l.enum.filter (fun p => p.2 = '\n')).getLast?.map (·.1)

/-! ## `_remove_artifacts` : the eleven `re.sub` passes, in order.

Each scanner walks the string left to right exactly as `re.sub` does:
at every position it attempts the (anchor-aware) match; on success it emits
the replacement and resumes after the match, otherwise it copies one
character.  `MULTILINE` anchors are tracked with an at-line-start flag
relative to the original character stream. -/

/-- Try the `page\s*\d+` alternative (case-insensitive) at the current
position; on success return the rest after the match. -/
def a1TryPage (l : List Char) : Option (List Char) :=
  match dropLitCI ['p','a','g','e'] l with
  | none => none
  | some r1 =>
    let ws := r1.takeWhile isSpacePy
    let r2 := r1.drop ws.length
    let ds := r2.takeWhile isDigitPy
    if ds.isEmpty then none else some (r2.drop ds.length)

/-- Try the `\d+\s*$` alternative at the current position (MULTILINE `$`);
on success return the rest after the match together with the flag
"the character preceding the resume position is a newline". -/
def a1TryNum (l : List Char) : Option (List Char × Bool) :=
  let ds := l.takeWhile isDigitPy
  if ds.isEmpty then none else
  let r1 := l.drop ds.length
  let ws := r1.takeWhile isSpacePy
  let after := r1.drop ws.length
  if after.isEmpty then some (ws.drop ws.length ++ after, ws ≠ [] && ws.getLast? = some '\n')
  else
    match lastNlIdx ws with
    | some k => some (ws.drop k ++ after, 0 < k && ws[k-1]? = some '\n')
    | none => none

/-- Pass 1: `re.sub(r'^(?:page\s*\d+|\d+\s*$)', '', text, M|I)`. -/
def subA1 : Nat → Bool → List Char → List Char
  | 0, _, l => l
  | _ + 1, _, [] => []
  | fuel + 1, atStart, c :: cs =>
    if atStart then
      match a1TryPage (c :: cs) with
      | some rest => subA1 fuel false rest
      | none =>
        match a1TryNum (c :: cs) with
        | some (rest, nl) => subA1 fuel nl rest
        | none => c :: subA1 fuel (c = '\n') cs
    else c :: subA1 fuel (c = '\n') cs

/-- Pass 2: `re.sub(r'^[-=_]{3,}$', '', text, M|I)`. -/
def subA2 : Nat → Bool → List Char → List Char
  | 0, _, l => l
  | _ + 1, _, [] => []
  | fuel + 1, atStart, c :: cs =>
    let sep := fun x => x = '-' || x = '=' || x = '_'
    if atStart ∧ sep c then
      let run := (c :: cs).takeWhile sep
      let rest := (c :: cs).drop run.length
      if 3 ≤ run.length ∧ (rest.isEmpty ∨ rest.head? = some '\n') then
        subA2 fuel false rest
      else c :: subA2 fuel false cs
    else c :: subA2 fuel (c = '\n') cs

/-- Pass 3: `re.sub(r'(\w)-\s+(\w)', r'\1\2', text, M|I)` — rejoin
hyphen-broken words.  On success scanning resumes after the second word
character (so later overlapping occurrences survive one pass). -/
def subA3 : Nat → List Char → List Char
  | 0, l => l
  | _ + 1, [] => []
  | fuel + 1, c :: cs =>
    if isWordChar c ∧ cs.head? = some '-' then
      let ws := cs.tail.takeWhile isSpacePy
      if ws.isEmpty then c :: subA3 fuel cs
      else
        match cs.tail.drop ws.length with
        | c2 :: rest =>
          if isWordChar c2 then c :: c2 :: subA3 fuel rest
          else c :: subA3 fuel cs
        | [] => c :: subA3 fuel cs
    else c :: subA3 fuel cs

/-- Pass 4: `re.sub(r'\b[bcdf…z BCDF…Z]\b', '', text)` — delete standalone
single consonants.  The flag records whether the previous original
character was a word character. -/
def subA4 : Nat → Bool → List Char → List Char
  | 0, _, l => l
  | _ + 1, _, [] => []
  | fuel + 1, prevW, c :: cs =>
    if isConsonant c ∧ ¬prevW ∧ (cs.isEmpty ∨ ¬isWordChar (cs.headD ' ')) then
      subA4 fuel true cs
    else c :: subA4 fuel (isWordChar c) cs

def isBulletChar (c : Char) : Bool :=
  c = '•' || c = '·' || c = '▪' || c = '▫' || c = '‣' || c = '⁃'

/-- Pass 5: `re.sub(r'^[•·▪▫‣⁃]\s*', '• ', text, M|I)`. -/
def subA5 : Nat → Bool → List Char → List Char
  | 0, _, l => l
  | _ + 1, _, [] => []
  | fuel + 1, atStart, c :: cs =>
    if atStart ∧ isBulletChar c then
      let ws := cs.takeWhile isSpacePy
      let nl := ws ≠ [] && ws.getLast? = some '\n'
      '•' :: ' ' :: subA5 fuel nl (cs.drop ws.length)
    else c :: subA5 fuel (c = '\n') cs

/-- Pass 6: quote normalization.  The character class in the source file is
`["  "  '  '  „  ‚  «  »]` (U+0022 twice, U+0027 twice, U+201E, U+201A,
U+00AB, U+00BB), all replaced by `"`. -/
def mapQuote (c : Char) : Char :=
  if c = '"' || c = '\'' || c = '„' || c = '‚' || c = '«' || c = '»' then '"' else c

def subA6 (l : List Char) : List Char := l.map mapQuote

/-- Pass 7: `re.sub(r'[.]{3,}', '...', text)`. -/
def subA7 : Nat → List Char → List Char
  | 0, l => l
  | _ + 1, [] => []
  | fuel + 1, c :: cs =>
    if c = '.' then
      let run := cs.takeWhile (· = '.')
      if 2 ≤ run.length then '.' :: '.' :: '.' :: subA7 fuel (cs.drop run.length)
      else c :: subA7 fuel cs
    else c :: subA7 fuel cs

/-- Pass 8: `re.sub(r'[-]{2,}', '--', text)`. -/
def subA8 : Nat → List Char → List Char
  | 0, l => l
  | _ + 1, [] => []
  | fuel + 1, c :: cs =>
    if c = '-' then
      let run := cs.takeWhile (· = '-')
      if 1 ≤ run.length then '-' :: '-' :: subA8 fuel (cs.drop run.length)
      else c :: subA8 fuel cs
    else c :: subA8 fuel cs

/-- Passes 9 and 10: `^===+$` and `^---+$` removed (these can only fire on
text the earlier passes left). -/
def subSepLine (sep : Char) : Nat → Bool → List Char → List Char
  | 0, _, l => l
  | _ + 1, _, [] => []
  | fuel + 1, atStart, c :: cs =>
    if atStart ∧ c = sep then
      let run := (c :: cs).takeWhile (· = sep)
      let rest := (c :: cs).drop run.length
      if 3 ≤ run.length ∧ (rest.isEmpty ∨ rest.head? = some '\n') then
        subSepLine sep fuel false rest
      else c :: subSepLine sep fuel false cs
    else c :: subSepLine sep fuel (c = '\n') cs

/-- `_remove_artifacts`: the eleven substitutions applied in source order. -/
def removeArtifacts (l : List Char) : List Char :=
  let t1 := subA1 l.length true l
  let t2 := subA2 t1.length true t1
  let t3 := subA3 t2.length t2
  let t4 := subA4 t3.length false t3
  let t5 := subA5 t4.length true t4
  let t6 := subA6 t5
  let t7 := subA7 t6.length t6
  let t8 := subA8 t7.length t7
  let t9 := subSepLine '=' t8.length true t8
  subSepLine '-' t9.length true t9

/-! ## `_normalize_whitespace` -/

/-- `text.replace('\t', ' ')`. -/
def subTabs (l : List Char) : List Char := l.map (fun c => if c = '\t' then ' ' else c)

/-- `re.sub(r'\n\s*\n\s*(\n\s*)*', '\n\n', text)`: a whitespace run that
starts with a newline and contains at least one further newline collapses
to exactly two newlines (the trailing greedy `\s*` eats the whole run). -/
def subParaBreaks : Nat → List Char → List Char
  | 0, l => l
  | _ + 1, [] => []
  | fuel + 1, c :: cs =>
    if c = '\n' then
      let ws := cs.takeWhile isSpacePy
      if ws.contains '\n' then '\n' :: '\n' :: subParaBreaks fuel (cs.drop ws.length)
      else c :: subParaBreaks fuel cs
    else c :: subParaBreaks fuel cs

/-- `re.sub(r'(?<!\n)\n(?!\n)', ' ', text)`: a lone newline becomes a space.
The look-behind refers to the original stream. -/
def subLoneNl : Nat → Bool → List Char → List Char
  | 0, _, l => l
  | _ + 1, _, [] => []
  | fuel + 1, prevNl, c :: cs =>
    if c = '\n' then
      if ¬prevNl ∧ cs.head? ≠ some '\n' then ' ' :: subLoneNl fuel true cs
      else '\n' :: subLoneNl fuel true cs
    else c :: subLoneNl fuel false cs

/-- `re.sub(r'[ ]+', ' ', text)`. -/
def subSpaces : Nat → List Char → List Char
  | 0, l => l
  | _ + 1, [] => []
  | fuel + 1, c :: cs =>
    if c = ' ' then ' ' :: subSpaces fuel (cs.dropWhile (· = ' '))
    else c :: subSpaces fuel cs

def normalizeWhitespace (l : List Char) : List Char :=
  let t1 := subTabs l
  let t2 := subParaBreaks t1.length t1
  let t3 := subLoneNl t2.length false t2
  subSpaces t3.length t3

/-! ## `_fix_encoding_issues` : literal `str.replace` passes -/

/-- `str.replace(pat, repl)`, left-to-right, non-overlapping. -/
def replaceLit (pat repl : List Char) : Nat → List Char → List Char
  | 0, l => l
  | _ + 1, [] => []
  | fuel + 1, c :: cs =>
    match dropLit pat (c :: cs) with
    | some rest => repl ++ replaceLit pat repl fuel rest
    | none => c :: replaceLit pat repl fuel cs

/-- The mojibake pairs of `_fix_encoding_issues`, with the exact characters
of the source file (e.g. the pattern on the `'--'` line is `â`, `€`, `"`). -/
def encodingFixes : List (List Char × List Char) :=
  [ (['â', '€', '™'], ['\'']),
    (['â', '€', 'œ'], ['"']),
    (['â', '€'], ['"']),
    (['â', '€', '"'], ['-', '-']),
    (['â', '€', '¢'], ['•']),
    (['Â', '°'], ['°']),
    (['â', '„', '¢'], ['™']),
    (['Â', '®'], ['®']) ]

def fixEncodingIssues (l : List Char) : List Char :=
  encodingFixes.foldl (fun t pr => replaceLit pr.1 pr.2 t.length t) l

/-! ## `_standardize_formatting` -/

/-- Python `str.title` on a single alphabetic keyword: capitalize. -/
def titleWord (l : List Char) : List Char :=
  match l with
  | [] => []
  | c :: cs => c.toUpper :: cs.map Char.toLower

/-- One `re.sub(f'({pattern})', m.group(1).title(), text, I|M)` pass for a
section pattern `^(kw1|kw2|…)`: at each line start try the alternatives in
order (case-insensitively) and title-case the matched characters. -/
def subSection (kws : List (List Char)) : Nat → Bool → List Char → List Char
  | 0, _, l => l
  | _ + 1, _, [] => []
  | fuel + 1, atStart, c :: cs =>
    if atStart then
      match kws.findSome? (fun kw => (dropLitCI kw (c :: cs)).map (kw.length, ·)) with
      | some (n, rest) =>
        titleWord ((c :: cs).take n) ++ subSection kws fuel false rest
      | none => c :: subSection kws fuel (c = '\n') cs
    else c :: subSection kws fuel (c = '\n') cs

def sectionPatterns : List (List (List Char)) :=
  [ [['t','r','o','u','b','l','e','s','h','o','o','t','i','n','g'],
     ['p','r','o','b','l','e','m'], ['i','s','s','u','e'], ['e','r','r','o','r']],
    [['m','a','i','n','t','e','n','a','n','c','e'],
     ['c','l','e','a','n','i','n','g'], ['s','e','r','v','i','c','e']],
    [['s','a','f','e','t','y'], ['w','a','r','n','i','n','g'],
     ['c','a','u','t','i','o','n']],
    [['w','a','r','r','a','n','t','y'], ['g','u','a','r','a','n','t','e','e']],
    [['i','n','s','t','a','l','l','a','t','i','o','n'], ['s','e','t','u','p']],
    [['s','p','e','c','i','f','i','c','a','t','i','o','n','s'],
     ['f','e','a','t','u','r','e','s']] ]

/-- A unit alternative: a case-insensitive literal followed by optional
single characters in order (e.g. `lbs?\.?` is `lb` with options `s`, `.`). -/
def dropUnitAlt (lit : List Char) (opts : List Char) (l : List Char) :
    Option (List Char) :=
  match dropLitCI lit l with
  | none => none
  | some rest =>
    some (opts.foldl (fun r o =>
      match r with
      | c :: cs => if c.toLower = o.toLower then cs else r
      | [] => r) rest)

/-- One measurement pass `re.sub(r'(\d+)\s*(alt1|alt2…)', r'\1 UNIT', text, I)`. -/
def subUnit (alts : List (List Char × List Char)) (unit : List Char) :
    Nat → List Char → List Char
  | 0, l => l
  | _ + 1, [] => []
  | fuel + 1, c :: cs =>
    if isDigitPy c then
      let ds := (c :: cs).takeWhile isDigitPy
      let r1 := (c :: cs).drop ds.length
      let ws := r1.takeWhile isSpacePy
      let r2 := r1.drop ws.length
      match alts.findSome? (fun a => dropUnitAlt a.1 a.2 r2) with
      | some rest => ds ++ ' ' :: unit ++ subUnit alts unit fuel rest
      | none => ds ++ ws ++ subUnit alts unit fuel r2
    else c :: subUnit alts unit fuel cs

/-- One temperature pass
`re.sub(r'(\d+)\s*degrees?\s*x(?:tail)?', r'\1°X', text, I)`. -/
def subDegrees (x : Char) (tail : List Char) (up : Char) :
    Nat → List Char → List Char
  | 0, l => l
  | _ + 1, [] => []
  | fuel + 1, c :: cs =>
    if isDigitPy c then
      let ds := (c :: cs).takeWhile isDigitPy
      let r1 := (c :: cs).drop ds.length
      let ws := r1.takeWhile isSpacePy
      let r2 := r1.drop ws.length
      match dropLitCI ['d','e','g','r','e','e'] r2 with
      | none => ds ++ ws ++ subDegrees x tail up fuel r2
      | some r3 =>
        let r4 := match r3 with
          | c2 :: cs2 => if c2.toLower = 's' then cs2 else r3
          | [] => r3
        let ws2 := r4.takeWhile isSpacePy
        let r5 := r4.drop ws2.length
        match r5 with
        | c3 :: cs3 =>
          if c3.toLower = x then
            let r6 := match dropLitCI tail cs3 with
              | some r => r
              | none => cs3
            ds ++ '°' :: up :: subDegrees x tail up fuel r6
          else ds ++ ws ++ subDegrees x tail up fuel r2
        | [] => ds ++ ws ++ subDegrees x tail up fuel r2
    else c :: subDegrees x tail up fuel cs

def standardizeFormatting (l : List Char) : List Char :=
  let t1 := sectionPatterns.foldl (fun t kws => subSection kws t.length true t) l
  let t2 := subUnit [(['i','n','c','h','e'], ['s']), (['i','n'], ['.'])]
              ['i','n','c','h','e','s'] t1.length t1
  let t3 := subUnit [(['f','e','e'], ['t']), (['f','t'], ['.'])]
              ['f','e','e','t'] t2.length t2
  let t4 := subUnit [(['p','o','u','n','d'], ['s']), (['l','b'], ['s', '.'])]
              ['l','b','s'] t3.length t3
  let t5 := subDegrees 'f' ['a','h','r','e','n','h','e','i','t'] 'F' t4.length t4
  subDegrees 'c' ['e','l','s','i','u','s'] 'C' t5.length t5

/-- `TextCleaner.clean_text`. -/
def cleanText (s : String) : String :=
  if s = "" then "" else
  ⟨stripL (standardizeFormatting (fixEncodingIssues
      (normalizeWhitespace (removeArtifacts s.data))))⟩

/-! ## Settings defaults (`config/settings.py`) -/

def MAX_CHUNK_SIZE : Nat := 1000
def CHUNK_OVERLAP : Nat := 200
def MIN_TEXT_LENGTH : Nat := 50
def MIN_READABILITY_SCORE : ℚ := 3/10
def DUPLICATE_SIMILARITY_THRESHOLD : ℚ := 9/10

/-! ## `PDFProcessor._chunk_text` -/

/-- `re.split(r'\n\s*\n', text)`: split at each leftmost greedy match of a
newline, whitespace, newline separator. -/
def splitParas : Nat → List Char → List Char → List (List Char)
  | 0, acc, l => [acc.reverse ++ l]
  | _ + 1, acc, [] => [acc.reverse]
  | fuel + 1, acc, c :: cs =>
    if c = '\n' then
      let ws := cs.takeWhile isSpacePy
      match lastNlIdx ws with
      | some k => acc.reverse :: splitParas fuel [] (ws.drop (k+1) ++ cs.drop ws.length)
      | none => splitParas fuel (c :: acc) cs
    else splitParas fuel (c :: acc) cs

structure Chunk where
  content : String
  page_number : Nat
  chunk_size : Nat
  deriving DecidableEq, Repr

/-- One iteration of the paragraph loop in `_chunk_text`; the state carries
the emitted chunks and the current buffer (whose Python `current_size`
always equals its length). -/
def chunkStep (pn : Nat) (st : List Chunk × List Char) (p : List Char) :
    List Chunk × List Char :=
  if MAX_CHUNK_SIZE < st.2.length + p.length ∧ st.2 ≠ [] then
    let emitted := st.1 ++ [⟨⟨stripL st.2⟩, pn, st.2.length⟩]
    if 0 < CHUNK_OVERLAP then
      let overlapText := st.2.drop (st.2.length - CHUNK_OVERLAP)
      (emitted, overlapText ++ '\n' :: '\n' :: p)
    else (emitted, p)
  else (st.1, if st.2 = [] then p else st.2 ++ '\n' :: '\n' :: p)

def chunkCore (pn : Nat) (paras : List (List Char)) : List Chunk :=
  if (paras.foldl (chunkStep pn) ([], [])).2 ≠ [] ∧
      MIN_TEXT_LENGTH ≤ (paras.foldl (chunkStep pn) ([], [])).2.length then
    (paras.foldl (chunkStep pn) ([], [])).1 ++
      [⟨⟨stripL (paras.foldl (chunkStep pn) ([], [])).2⟩, pn,
        (paras.foldl (chunkStep pn) ([], [])).2.length⟩]
  else (paras.foldl (chunkStep pn) ([], [])).1

/-- The stripped, non-empty paragraphs the chunk loop iterates over. -/
def paragraphsOf (cleaned : String) : List (List Char) :=
  ((splitParas cleaned.data.length [] cleaned.data).map stripL).filter (· ≠ [])

/-- `PDFProcessor._chunk_text`: clean, length-gate, split into paragraphs
(stripped, empties skipped), then accumulate into overlapping chunks. -/
def chunkText (text : String) (pageNumber : Nat) : List Chunk :=
  let cleaned := cleanText text
  if cleaned = "" ∨ cleaned.length < MIN_TEXT_LENGTH then []
  else chunkCore pageNumber (paragraphsOf cleaned)

/-- The longest paragraph length of a paragraph list. -/
def maxParaLen (paras : List (List Char)) : Nat :=
  (paras.map List.length).foldr max 0

/-! ## `QualityValidator.calculate_readability_score`

Floats are modelled as `ℚ`; every constant in the source is an exact small
decimal.  The score is the final clamp of `1.0` plus seven additive
adjustments, each computed from the text exactly as in the source. -/

/-- Python `str.split()` with no arguments: whitespace-separated words. -/
def splitWS : Nat → List Char → List (List Char)
  | 0, _ => []
  | _ + 1, [] => []
  | fuel + 1, c :: cs =>
    if isSpacePy c then splitWS fuel cs
    else
      let w := (c :: cs).takeWhile (fun x => ¬isSpacePy x)
      w :: splitWS fuel ((c :: cs).drop w.length)

/-- `re.split(r'[.!?]+', text)`: split on runs of sentence punctuation,
keeping empty pieces (the caller filters them). -/
def splitSentences : Nat → List Char → List Char → List (List Char)
  | 0, acc, l => [acc.reverse ++ l]
  | _ + 1, acc, [] => [acc.reverse]
  | fuel + 1, acc, c :: cs =>
    if c = '.' || c = '!' || c = '?' then
      acc.reverse :: splitSentences fuel [] (cs.dropWhile (fun x => x = '.' || x = '!' || x = '?'))
    else splitSentences fuel (c :: acc) cs

/-- `text.split('\n')` keeping empty pieces. -/
def splitNl : Nat → List Char → List Char → List (List Char)
  | 0, acc, l => [acc.reverse ++ l]
  | _ + 1, acc, [] => [acc.reverse]
  | fuel + 1, acc, c :: cs =>
    if c = '\n' then acc.reverse :: splitNl fuel [] cs
    else splitNl fuel (c :: acc) cs

/-- The special-character class `[^\w\s.,!?;:\'"()-]`. -/
def isSpecialChar (c : Char) : Bool :=
  !(isWordChar c || isSpacePy c || c = '.' || c = ',' || c = '!' || c = '?' ||
    c = ';' || c = ':' || c = '\'' || c = '"' || c = '(' || c = ')' || c = '-')

/-- Substring test (Python `in` on strings). -/
def containsSub : Nat → List Char → List Char → Bool
  | 0, pat, _ => pat.isEmpty
  | _ + 1, pat, [] => pat.isEmpty
  | fuel + 1, pat, c :: cs =>
    match dropLit pat (c :: cs) with
    | some _ => true
    | none => containsSub fuel pat cs

def meaningfulKeywords : List String :=
  ["troubleshooting", "problem", "issue", "error", "solution",
   "maintenance", "cleaning", "service", "repair",
   "safety", "warning", "caution", "danger",
   "installation", "setup", "configuration",
   "washer", "washing", "machine", "appliance"]

/-- Number of meaningful keywords occurring in the lower-cased text. -/
def keywordCount (l : List Char) : Nat :=
  (meaningfulKeywords.filter
    (fun k => containsSub (lowerL l).length k.data (lowerL l))).length

/-- Text-length adjustment: `< 100 → -0.2`, `> 2000 → -0.1`. -/
def lengthAdjOf (stripLen : Nat) : ℚ :=
  if stripLen < 100 then -1/5 else if 2000 < stripLen then -1/10 else 0

/-- Average-word-length adjustment: `< 3 → -0.2`, `> 8 → -0.1`. -/
def wordLenAdjOf (words : List (List Char)) : ℚ :=
  let avg : ℚ := ((words.map List.length).sum : ℚ) / (words.length : ℚ)
  if avg < 3 then -1/5 else if 8 < avg then -1/10 else 0

/-- Special-character adjustment: ratio above 5% costs 0.3. -/
def specialAdjOf (specials len : Nat) : ℚ :=
  if 1/20 < (specials : ℚ) / (len : ℚ) then -3/10 else 0

/-- Sentence-structure adjustment on the non-empty stripped sentences. -/
def sentenceAdjOf (sentences : List (List Char)) : ℚ :=
  if sentences.isEmpty then 0
  else
    let avg : ℚ := ((sentences.map (fun s => ((splitWS s.length s).length : ℚ))).sum) /
      (sentences.length : ℚ)
    if 3 ≤ avg ∧ avg ≤ 50 then 1/10 else -1/5

/-- Alphabetic-ratio adjustment: below 50% costs 0.2. -/
def alphaAdjOf (alpha len : Nat) : ℚ :=
  if ((alpha : ℚ) / (len : ℚ)) < 1/2 then -1/5 else 0

/-- Duplicate-line adjustment: `len(set(lines)) < len(lines) * 0.8` costs 0.2. -/
def dupAdjOf (lines : List (List Char)) : ℚ :=
  if (lines.dedup.length : ℚ) < (lines.length : ℚ) * (4/5) then -1/5 else 0

/-- Keyword bonus: `min(0.2, count * 0.05)` when any keyword matches. -/
def kwAdjOf (count : Nat) : ℚ :=
  if 0 < count then min (1/5) ((count : ℚ) * (1/20)) else 0

structure ScoreFactors where
  lengthAdj : ℚ
  wordLenAdj : ℚ
  specialAdj : ℚ
  sentenceAdj : ℚ
  alphaAdj : ℚ
  dupAdj : ℚ
  kwAdj : ℚ

/-- Final clamp of the additive score. -/
def scoreOfFactors (f : ScoreFactors) : ℚ :=
  max 0 (min 1 (1 + f.lengthAdj + f.wordLenAdj + f.specialAdj + f.sentenceAdj +
    f.alphaAdj + f.dupAdj + f.kwAdj))

def scoreFactorsOf (t : String) : ScoreFactors where
  lengthAdj := lengthAdjOf (stripL t.data).length
  wordLenAdj := wordLenAdjOf (splitWS t.data.length t.data)
  specialAdj := specialAdjOf (t.data.countP isSpecialChar) t.data.length
  sentenceAdj := sentenceAdjOf
    (((splitSentences t.data.length [] t.data).map stripL).filter (· ≠ []))
  alphaAdj := alphaAdjOf (t.data.countP isAsciiAlpha) t.data.length
  dupAdj := dupAdjOf (splitNl t.data.length [] t.data)
  kwAdj := kwAdjOf (keywordCount t.data)

/-- `QualityValidator.calculate_readability_score`. -/
def readabilityScore (t : String) : ℚ :=
  if t = "" ∨ (stripL t.data).length < MIN_TEXT_LENGTH then 0
  else if (splitWS t.data.length t.data).isEmpty then 0
  else scoreOfFactors (scoreFactorsOf t)

/-- The storage filter of `process_pdf_file`: a chunk is stored iff its
quality score is not below `MIN_READABILITY_SCORE`. -/
def chunkPassesQuality (content : String) : Bool :=
  !(readabilityScore content < MIN_READABILITY_SCORE)

/-! ## `QualityValidator._calculate_text_similarity`

`difflib.SequenceMatcher(None, a, b).ratio()` with `isjunk = None`: the
b-side occurrence index drops "popular" elements when `len(b) ≥ 200`
(autojunk); `find_longest_match` is the classic dynamic-programming loop
followed by the two extension loops (the junk-extension loops never fire
because the junk set is empty with `isjunk = None`). -/

/-- Ascending list of indices of `c` in `b`. -/
def occIdx (b : List Char) (c : Char) : List Nat :=
  (List.range b.length).filter (fun j => b.getD j ' ' = c)

/-- Autojunk: for `len(b) ≥ 200`, characters occurring more than
`len(b) // 100 + 1` times are dropped from the index. -/
def isPopular (b : List Char) (c : Char) : Bool :=
  200 ≤ b.length && b.length / 100 + 1 < b.count c

def b2jOf (b : List Char) (c : Char) : List Nat :=
  if isPopular b c then [] else occIdx b c

/-- One iteration of the inner loop of `find_longest_match`: `prev` is the
`j2len` map of the previous row (read-only), the state is the new map
together with the current best `(besti, bestj, bestsize)`. -/
def flmInner (prev : Nat → Nat) (i : Nat)
    (st : (Nat → Nat) × (Nat × Nat × Nat)) (j : Nat) :
    (Nat → Nat) × (Nat × Nat × Nat) :=
  let k := (if j = 0 then 0 else prev (j - 1)) + 1
  let m := fun x => if x = j then k else st.1 x
  if st.2.2.2 < k then (m, (i + 1 - k, j + 1 - k, k)) else (m, st.2)

/-- The main dynamic-programming loop of `find_longest_match`. -/
def flmMain (a : List Char) (b2j : Char → List Nat) (alo ahi blo bhi : Nat) :
    Nat × Nat × Nat :=
  ((List.range' alo (ahi - alo)).foldl
    (fun (st : (Nat → Nat) × (Nat × Nat × Nat)) i =>
      ((b2j (a.getD i ' ')).filter (fun j => blo ≤ j && j < bhi)).foldl
        (flmInner st.1 i) ((fun _ => 0), st.2))
    ((fun _ => 0), (alo, blo, 0))).2

/-- Left extension loop: grow the best block while preceding characters
match (fuel bounds the walk to the left). -/
def extendLeft (a b : List Char) (alo blo : Nat) :
    Nat → Nat × Nat × Nat → Nat × Nat × Nat
  | 0, st => st
  | fuel + 1, (besti, bestj, bestsize) =>
    if alo < besti ∧ blo < bestj ∧ a.getD (besti - 1) ' ' = b.getD (bestj - 1) ' ' then
      extendLeft a b alo blo fuel (besti - 1, bestj - 1, bestsize + 1)
    else (besti, bestj, bestsize)

/-- Right extension loop. -/
def extendRight (a b : List Char) (ahi bhi : Nat) :
    Nat → Nat × Nat × Nat → Nat × Nat × Nat
  | 0, st => st
  | fuel + 1, (besti, bestj, bestsize) =>
    if besti + bestsize < ahi ∧ bestj + bestsize < bhi ∧
        a.getD (besti + bestsize) ' ' = b.getD (bestj + bestsize) ' ' then
      extendRight a b ahi bhi fuel (besti, bestj, bestsize + 1)
    else (besti, bestj, bestsize)

def findLongestMatch (a b : List Char) (b2j : Char → List Nat)
    (alo ahi blo bhi : Nat) : Nat × Nat × Nat :=
  let st := flmMain a b2j alo ahi blo bhi
  let st2 := extendLeft a b alo blo st.1 st
  extendRight a b ahi bhi (ahi - (st2.1 + st2.2.2)) st2

/-- Total size of all matching blocks (`get_matching_blocks` recursion). -/
def matchTotal (a b : List Char) (b2j : Char → List Nat) :
    Nat → Nat × Nat × Nat × Nat → Nat
  | 0, _ => 0
  | fuel + 1, (alo, ahi, blo, bhi) =>
    let r := findLongestMatch a b b2j alo ahi blo bhi
    let i := r.1
    let j := r.2.1
    let k := r.2.2
    if k = 0 then 0
    else
      k + (if alo < i ∧ blo < j then matchTotal a b b2j fuel (alo, i, blo, j) else 0)
        + (if i + k < ahi ∧ j + k < bhi then
            matchTotal a b b2j fuel (i + k, ahi, j + k, bhi) else 0)

/-- `SequenceMatcher.ratio()` as a rational. -/
def seqRatioQ (a b : List Char) : ℚ :=
  let m := matchTotal a b (b2jOf b) (a.length + b.length + 1) (0, a.length, 0, b.length)
  if a.length + b.length = 0 then 1
  else 2 * (m : ℚ) / ((a.length : ℚ) + (b.length : ℚ))

/-- `QualityValidator._calculate_text_similarity`. -/
def textSimilarity (t1 t2 : String) : ℚ :=
  if t1 = "" ∨ t2 = "" then 0
  else seqRatioQ (stripL (lowerL t1.data)) (stripL (lowerL t2.data))

/-! ## `PDFProcessor._extract_pdf_text`

The PyPDF2 reader is an external collaborator; a page is modelled as the
outcome of `page.extract_text()`: `none` when extraction raised, `some t`
otherwise.  Page numbers are 1-based (`enumerate(pdf_reader.pages, 1)`). -/

def extractLoop (minLen : Nat) : List (Option String) → Nat → List (String × Nat)
  | [], _ => []
  | p :: ps, n =>
    match p with
    | none => extractLoop minLen ps (n + 1)
    | some t =>
      if t ≠ "" ∧ stripL t.data ≠ [] then
        if minLen ≤ (stripL t.data).length then
          (t, n) :: extractLoop minLen ps (n + 1)
        else extractLoop minLen ps (n + 1)
      else extractLoop minLen ps (n + 1)

/-- `_extract_pdf_text`: collect pages whose stripped text is long enough;
raise `ValueError("No readable text found in PDF")` when none qualify. -/
def extractPdfText (pages : List (Option String)) :
    Except String (List (String × Nat)) :=
  let kept := extractLoop MIN_TEXT_LENGTH pages 1
  if kept.isEmpty then .error "No readable text found in PDF" else .ok kept

/-! ## `ContentManager` (structured store + vector store)

The PostgreSQL store is a list of records in insertion order; the ChromaDB
backend is an external collaborator whose outcomes are inputs to the
model. -/

structure ContentRecord where
  id : String
  manufacturer : String
  model_series : String
  section_title : String
  content : String
  content_type : String
  confidence_score : ℚ
  source_manual : String
  page_reference : String
  created_at : String
  deriving DecidableEq, Repr

structure ChunkMetadata where
  manufacturer : String
  model_series : String
  content_type : String
  source_manual : String
  deriving DecidableEq, Repr

/-- `_store_embedding_in_chromadb`: every exception and every non-2xx status
is absorbed; the call merely reports whether the add visibly succeeded. -/
def storeEmbeddingInChromadb (addOutcome : Except String Nat) : Bool :=
  match addOutcome with
  | .error _ => false
  | .ok status => if status = 200 ∨ status = 201 then true else true

/-- `ContentManager.store_content_chunk`: insert the record into the
structured store, then attempt the vector-store add, whose result is not
consulted; any structured-store exception propagates. -/
def storeContentChunk (db : List ContentRecord) (dbInsertOk : Bool)
    (chromaAddOutcome : Except String Nat) (content : String)
    (metadata : ChunkMetadata) (pageReference : String) (confidence : ℚ)
    (newId now : String) : List ContentRecord × Except String String :=
  if dbInsertOk then
    let rec0 : ContentRecord :=
      { id := newId, manufacturer := metadata.manufacturer,
        model_series := metadata.model_series, section_title := "Manual Content",
        content := content, content_type := metadata.content_type,
        confidence_score := confidence, source_manual := metadata.source_manual,
        page_reference := pageReference, created_at := now }
    let _ := storeEmbeddingInChromadb chromaAddOutcome
    (db ++ [rec0], .ok newId)
  else (db, .error "Failed to store content chunk")

/-- `ContentManager.get_content_by_id` (first record with the id). -/
def getContentById (db : List ContentRecord) (contentId : String) :
    Option ContentRecord :=
  db.find? (fun r => r.id = contentId)

/-- Case-insensitive substring filter (`ILIKE '%m%'`). -/
def ilikeSub (pat s : String) : Bool :=
  containsSub (lowerL s.data).length (lowerL pat.data) (lowerL s.data)

structure SearchHit where
  record : ContentRecord
  similarity_score : ℚ
  deriving DecidableEq, Repr

/-- `ContentManager._fallback_text_search`: filter the structured store by
manufacturer / content type / confidence, truncate, and attach the fixed
similarity score `0.5`. -/
def fallbackTextSearch (db : List ContentRecord) (manufacturer : Option String)
    (contentType : Option String) (minConfidence : ℚ) (maxResults : Nat) :
    List SearchHit :=
  let filtered := db.filter (fun r =>
    (match manufacturer with | some m => ilikeSub m r.manufacturer | none => true) &&
    (match contentType with | some ct => r.content_type = ct | none => true) &&
    minConfidence ≤ r.confidence_score)
  (filtered.take maxResults).map (fun r => ⟨r, 1/2⟩)

/-- The outcome of the ChromaDB `query` call: an exception, a non-200 HTTP
status, or ranked ids with distances. -/
inductive ChromaQueryOutcome where
  | exn (msg : String)
  | badStatus (code : Nat)
  | ok (hits : List (String × ℚ))

/-- `ContentManager.search_content`: vector search when the backend answers
with status 200, otherwise the structured-store fallback. -/
def searchContent (db : List ContentRecord) (chroma : ChromaQueryOutcome)
    (manufacturer : Option String) (contentType : Option String)
    (minConfidence : ℚ) (maxResults : Nat) : List SearchHit :=
  match chroma with
  | .ok hits =>
    hits.foldl (fun acc h =>
      let similarity := max 0 (1 - h.2)
      if similarity < minConfidence then acc
      else
        match getContentById db h.1 with
        | some r => acc ++ [⟨r, similarity⟩]
        | none => acc) []
  | .badStatus _ => fallbackTextSearch db manufacturer contentType minConfidence maxResults
  | .exn _ => fallbackTextSearch db manufacturer contentType minConfidence maxResults

/-! ## `PDFProcessor` job state machine

A `ProcessingJob` mirrors the Python class; the registry is an association
list keyed by job id.  One invocation of `process_pdf_file` is the fold of
its sequence of job mutations, which depends on where (if anywhere) the
staged pipeline raises; that outcome is an input to the model. -/

structure ProcessingJob where
  job_id : String
  filename : String
  status : String
  progress_percent : ℚ
  message : String
  created_at : String
  completed_at : Option String
  error_details : Option String
  deriving DecidableEq, Repr

def newJob (jobId filename now : String) : ProcessingJob :=
  { job_id := jobId, filename := filename, status := "queued",
    progress_percent := 0, message := "Job queued for processing",
    created_at := now, completed_at := none, error_details := none }

/-- One job-field mutation performed by `process_pdf_file`. -/
inductive JobUpdate where
  | setProcessing
  | setProgress (p : ℚ) (msg : String)
  | complete (stored : Nat) (t : String)
  | fail (err : String) (t : String)
  deriving DecidableEq, Repr

def applyUpdate (j : ProcessingJob) : JobUpdate → ProcessingJob
  | .setProcessing =>
    { j with status := "processing", message := "Extracting text from PDF",
             progress_percent := 10 }
  | .setProgress p msg => { j with progress_percent := p, message := msg }
  | .complete stored t =>
    { j with status := "completed", progress_percent := 100,
             message := s!"Processing completed - {stored} chunks stored",
             completed_at := some t }
  | .fail err t =>
    { j with status := "failed", error_details := some err,
             message := s!"Processing failed: {err}", completed_at := some t }

/-- Python `range(0, n, b)` for `b ≥ 1`: the batch start offsets. -/
def batchStarts (n b : Nat) : List Nat :=
  (List.range ((n + b - 1) / b)).map (· * b)

/-- The batch-loop progress update: `min(60 + 40*(i+b)/n, 95)`. -/
def batchProgress (n b i : Nat) : ℚ :=
  min (60 + 40 * (((i : ℚ) + (b : ℚ)) / (n : ℚ))) 95

/-- Where a single invocation of the staged pipeline stops: `n` is the total
chunk count, `b` the embedding batch size, `stored` how many chunks passed
the quality gate. -/
inductive RunOutcome where
  | extractionFailed (err : String)
  | noChunks
  | batchFailed (n b doneBatches : Nat) (err : String)
  | success (n b stored : Nat)
  deriving DecidableEq, Repr

/-- The sequence of job mutations performed by one `process_pdf_file`
invocation with the given outcome. -/
def runUpdates (outcome : RunOutcome) (t : String) : List JobUpdate :=
  match outcome with
  | .extractionFailed err => [.setProcessing, .fail err t]
  | .noChunks =>
    [.setProcessing, .setProgress 30 "Cleaning and chunking text",
     .fail "No valid text chunks extracted from PDF" t]
  | .batchFailed n b done err =>
    [.setProcessing, .setProgress 30 "Cleaning and chunking text",
     .setProgress 50 s!"Processing {n} text chunks",
     .setProgress 60 "Generating embeddings"] ++
    ((batchStarts n b).take done).map
      (fun i => .setProgress (batchProgress n b i) "Generating embeddings") ++
    [.fail err t]
  | .success n b stored =>
    [.setProcessing, .setProgress 30 "Cleaning and chunking text",
     .setProgress 50 s!"Processing {n} text chunks",
     .setProgress 60 "Generating embeddings"] ++
    ((batchStarts n b).map
      (fun i => .setProgress (batchProgress n b i) "Generating embeddings")) ++
    [.complete stored t]

abbrev JobRegistry := List (String × ProcessingJob)

def regGet (reg : JobRegistry) (jobId : String) : Option ProcessingJob :=
  (reg.find? (fun e => e.1 = jobId)).map (·.2)

def regSet (reg : JobRegistry) (jobId : String) (j : ProcessingJob) : JobRegistry :=
  if (reg.find? (fun e => e.1 = jobId)).isSome then
    reg.map (fun e => if e.1 = jobId then (jobId, j) else e)
  else reg ++ [(jobId, j)]

def regDel (reg : JobRegistry) (jobId : String) : JobRegistry :=
  reg.filter (fun e => e.1 ≠ jobId)

/-- `process_pdf_file`: reuse the job if the id is known, else create it,
then apply the invocation's mutations.  Returns the new registry and the
boolean the coroutine returns. -/
def processPdfFile (reg : JobRegistry) (jobId filename : String)
    (outcome : RunOutcome) (now : String) : JobRegistry × Bool :=
  let j0 := match regGet reg jobId with
    | some j => j
    | none => newJob jobId filename now
  let j1 := (runUpdates outcome now).foldl applyUpdate j0
  (regSet reg jobId j1,
   match outcome with | .success _ _ _ => true | _ => false)

/-- `get_job_status` (the returned dictionary carries exactly the job's
fields). -/
def getJobStatus (reg : JobRegistry) (jobId : String) : Option ProcessingJob :=
  regGet reg jobId

/-- An externally triggered operation on the registry. -/
inductive PipelineOp where
  | processFile (jobId filename : String) (outcome : RunOutcome) (now : String)
  | deleteJob (jobId : String)
  deriving DecidableEq, Repr

def applyOp (reg : JobRegistry) : PipelineOp → JobRegistry
  | .processFile jobId filename outcome now =>
    (processPdfFile reg jobId filename outcome now).1
  | .deleteJob jobId => regDel reg jobId

def applyOps (reg : JobRegistry) (ops : List PipelineOp) : JobRegistry :=
  ops.foldl applyOp reg

/-- The job id an operation mutates. -/
def opTouches (op : PipelineOp) (jobId : String) : Prop :=
  match op with
  | .processFile j _ _ _ => j = jobId
  | .deleteJob j => j = jobId

instance (op : PipelineOp) (jobId : String) : Decidable (opTouches op jobId) := by
  cases op <;> simp [opTouches] <;> infer_instance

/-- The successive values assigned to `progress_percent` by a list of
updates. -/
def progressValues (ups : List JobUpdate) : List ℚ :=
  ups.filterMap (fun u =>
    match u with
    | .setProcessing => some 10
    | .setProgress p _ => some p
    | .complete _ _ => some 100
    | .fail _ _ => none)

/-- All progress assignments observed across a sequence of operations. -/
def opsProgressValues (ops : List PipelineOp) : List ℚ :=
  ops.flatMap (fun op =>
    match op with
    | .processFile _ _ outcome now => progressValues (runUpdates outcome now)
    | .deleteJob _ => [])

/-! ## Generic facts about the embedded operations -/

theorem stripL_length_le (l : List Char) : (stripL l).length ≤ l.length := by
  unfold stripL
  calc ((l.dropWhile isSpacePy).reverse.dropWhile isSpacePy).reverse.length
      = ((l.dropWhile isSpacePy).reverse.dropWhile isSpacePy).length :=
        List.length_reverse _
    _ ≤ (l.dropWhile isSpacePy).reverse.length :=
        (List.dropWhile_sublist _).length_le
    _ = (l.dropWhile isSpacePy).length := List.length_reverse _
    _ ≤ l.length := (List.dropWhile_sublist _).length_le

theorem scoreOfFactors_nonneg (f : ScoreFactors) : 0 ≤ scoreOfFactors f :=
  le_max_left 0 _

theorem scoreOfFactors_le_one (f : ScoreFactors) : scoreOfFactors f ≤ 1 :=
  max_le zero_le_one (min_le_left 1 _)

/-- A page that the extraction loop keeps. -/
def keptPage (p : Option String) : Prop :=
  ∃ t, p = some t ∧ MIN_TEXT_LENGTH ≤ (stripL t.data).length

instance (p : Option String) : Decidable (keptPage p) := by
  unfold keptPage
  cases p with
  | none => exact .isFalse (by simp)
  | some t =>
    by_cases h : MIN_TEXT_LENGTH ≤ (stripL t.data).length
    · exact .isTrue ⟨t, rfl, h⟩
    · exact .isFalse (by simpa using h)

theorem extractLoop_skip (p : Option String) (hp : ¬keptPage p)
    (rest : List (Option String)) (n : Nat) :
    extractLoop MIN_TEXT_LENGTH (p :: rest) n =
      extractLoop MIN_TEXT_LENGTH rest (n + 1) := by
  cases p with
  | none => rfl
  | some t =>
    have hlen : ¬MIN_TEXT_LENGTH ≤ (stripL t.data).length := by
      intro h; exact hp ⟨t, rfl, h⟩
    show (if t ≠ "" ∧ stripL t.data ≠ [] then
        if MIN_TEXT_LENGTH ≤ (stripL t.data).length then
          (t, n) :: extractLoop MIN_TEXT_LENGTH rest (n + 1)
        else extractLoop MIN_TEXT_LENGTH rest (n + 1)
      else extractLoop MIN_TEXT_LENGTH rest (n + 1)) = _
    rw [if_neg hlen, ite_self]

theorem extractLoop_keep (t : String) (ht : keptPage (some t))
    (rest : List (Option String)) (n : Nat) :
    extractLoop MIN_TEXT_LENGTH (some t :: rest) n =
      (t, n) :: extractLoop MIN_TEXT_LENGTH rest (n + 1) := by
  obtain ⟨t', ht', hlen⟩ := ht
  obtain rfl : t = t' := by injection ht'
  have hne : t ≠ "" ∧ stripL t.data ≠ [] := by
    refine ⟨?_, ?_⟩
    · rintro rfl
      revert hlen
      decide
    · intro h
      rw [h] at hlen
      simp [MIN_TEXT_LENGTH] at hlen
  show (if t ≠ "" ∧ stripL t.data ≠ [] then
      if MIN_TEXT_LENGTH ≤ (stripL t.data).length then
        (t, n) :: extractLoop MIN_TEXT_LENGTH rest (n + 1)
      else extractLoop MIN_TEXT_LENGTH rest (n + 1)
    else extractLoop MIN_TEXT_LENGTH rest (n + 1)) = _
  rw [if_pos hne, if_pos hlen]

theorem extractLoop_empty_iff (pages : List (Option String)) (n : Nat) :
    extractLoop MIN_TEXT_LENGTH pages n = [] ↔ ∀ p ∈ pages, ¬keptPage p := by
  induction pages generalizing n with
  | nil => simp [extractLoop]
  | cons p ps ih =>
    by_cases hp : keptPage p
    · obtain ⟨t, rfl, hlen⟩ := hp
      rw [extractLoop_keep t ⟨t, rfl, hlen⟩]
      simp only [List.mem_cons]
      constructor
      · intro h; cases h
      · intro h
        exact absurd ⟨t, rfl, hlen⟩ (h _ (Or.inl rfl))
    · rw [extractLoop_skip _ hp, ih]
      simp only [List.mem_cons]
      constructor
      · intro h q hq
        rcases hq with rfl | hq
        · exact hp
        · exact h q hq
      · intro h q hq
        exact h q (Or.inr hq)

theorem extractLoop_mem (pages : List (Option String)) (n : Nat)
    (e : String × Nat) (he : e ∈ extractLoop MIN_TEXT_LENGTH pages n) :
    ∃ i, i < pages.length ∧ e.2 = n + i ∧ pages.getD i none = some e.1 ∧
      keptPage (some e.1) := by
  induction pages generalizing n with
  | nil => simp [extractLoop] at he
  | cons p ps ih =>
    by_cases hp : keptPage p
    · obtain ⟨t, rfl, hlen⟩ := hp
      rw [extractLoop_keep t ⟨t, rfl, hlen⟩] at he
      rcases List.mem_cons.mp he with rfl | he
      · exact ⟨0, by simp, by simp, by simp, t, rfl, hlen⟩
      · obtain ⟨i, hi, hn, hgi, hk⟩ := ih (n + 1) he
        exact ⟨i + 1, by simpa using hi, by omega, by simpa using hgi, hk⟩
    · rw [extractLoop_skip _ hp] at he
      obtain ⟨i, hi, hn, hgi, hk⟩ := ih (n + 1) he
      exact ⟨i + 1, by simpa using hi, by omega, by simpa using hgi, hk⟩

theorem extractLoop_append (xs ys : List (Option String)) (n : Nat) :
    extractLoop MIN_TEXT_LENGTH (xs ++ ys) n =
      extractLoop MIN_TEXT_LENGTH xs n ++
        extractLoop MIN_TEXT_LENGTH ys (n + xs.length) := by
  induction xs generalizing n with
  | nil => simp [extractLoop]
  | cons p ps ih =>
    have harith : n + 1 + ps.length = n + (ps.length + 1) := by omega
    by_cases hp : keptPage p
    · obtain ⟨t, rfl, hlen⟩ := hp
      simp only [List.cons_append]
      rw [extractLoop_keep t ⟨t, rfl, hlen⟩, extractLoop_keep t ⟨t, rfl, hlen⟩,
        ih, List.cons_append, List.length_cons, harith]
    · simp only [List.cons_append]
      rw [extractLoop_skip _ hp, extractLoop_skip _ hp, ih, List.length_cons,
        harith]

/-- C10.  During extraction, a page whose text strips below
`MIN_TEXT_LENGTH` is dropped exactly like an empty or unreadable page: it
contributes no `(text, page_number)` entry, raises nothing, and the
`No readable text found in PDF` error is raised exactly when every page is
dropped. -/
theorem extract_pdf_drops_short_pages :
    (∀ pages : List (Option String),
      extractPdfText pages = .error "No readable text found in PDF" ↔
        ∀ p ∈ pages, ¬keptPage p) ∧
    (∀ (pages : List (Option String)) (l : List (String × Nat)),
      extractPdfText pages = .ok l →
        ∀ i, i < pages.length → ¬keptPage (pages.getD i none) →
          ∀ e ∈ l, e.2 ≠ i + 1) ∧
    (∀ (pre post : List (Option String)) (p q : Option String),
      ¬keptPage p → ¬keptPage q →
        extractPdfText (pre ++ p :: post) = extractPdfText (pre ++ q :: post)) := by
  refine ⟨?_, ?_, ?_⟩
  · intro pages
    unfold extractPdfText
    rw [← extractLoop_empty_iff pages 1]
    constructor
    · intro h
      by_cases he : (extractLoop MIN_TEXT_LENGTH pages 1).isEmpty
      · exact List.isEmpty_iff.mp he
      · rw [if_neg he] at h
        cases h
    · intro h
      rw [if_pos (List.isEmpty_iff.mpr h)]
  · intro pages l hok i hi hdrop e he
    unfold extractPdfText at hok
    by_cases hne : (extractLoop MIN_TEXT_LENGTH pages 1).isEmpty
    · rw [if_pos hne] at hok
      cases hok
    · rw [if_neg hne] at hok
      obtain rfl : extractLoop MIN_TEXT_LENGTH pages 1 = l := by
        injection hok
      obtain ⟨i0, hi0, hn0, hg0, hk0⟩ := extractLoop_mem pages 1 e he
      intro hcontra
      have : i0 = i := by omega
      subst this
      rw [hg0] at hdrop
      exact hdrop hk0
  · intro pre post p q hp hq
    unfold extractPdfText
    rw [extractLoop_append, extractLoop_append, extractLoop_skip _ hp,
      extractLoop_skip _ hq]

/-- Witness for C10 at a concrete three-page document: a readable page, an
unreadable one, and a short one. -/
theorem extract_pdf_drops_short_pages_witness :
    extractPdfText [some ⟨List.replicate 60 'a'⟩, none, some "tiny"] =
        .ok [(⟨List.replicate 60 'a'⟩, 1)] ∧
      ¬keptPage (([some ⟨List.replicate 60 'a'⟩, none, some "tiny"] :
          List (Option String)).getD 2 none) ∧
      (∀ e ∈ [((⟨List.replicate 60 'a'⟩ : String), 1)], e.2 ≠ 2 + 1) ∧
      extractPdfText [some "tiny"] = .error "No readable text found in PDF" := by
  refine ⟨by rfl, by decide, ?_, ?_⟩
  · exact extract_pdf_drops_short_pages.2.1
      [some ⟨List.replicate 60 'a'⟩, none, some "tiny"] _ (by rfl) 2
      (by decide) (by decide)
  · exact (extract_pdf_drops_short_pages.1 [some "tiny"]).mpr (by decide)

/-- C8.  The readability score is always in `[0,1]`; text whose stripped
length is below `MIN_TEXT_LENGTH` scores exactly `0`; in particular the
Scenario-B chunk `"a b c d e f g h i j"` scores `0`, which is below the
default threshold `0.3`, so the pipeline's quality gate excludes it from
storage. -/
theorem readability_range_and_rejection :
    (∀ t : String, 0 ≤ readabilityScore t ∧ readabilityScore t ≤ 1) ∧
    (∀ t : String, (stripL t.data).length < MIN_TEXT_LENGTH →
      readabilityScore t = 0) ∧
    readabilityScore "a b c d e f g h i j" = 0 ∧
    readabilityScore "a b c d e f g h i j" < MIN_READABILITY_SCORE ∧
    chunkPassesQuality "a b c d e f g h i j" = false := by
  have hrange : ∀ t : String, 0 ≤ readabilityScore t ∧ readabilityScore t ≤ 1 := by
    intro t
    unfold readabilityScore
    split
    · norm_num
    · split
      · norm_num
      · exact ⟨scoreOfFactors_nonneg _, scoreOfFactors_le_one _⟩
  have hshort : ∀ t : String, (stripL t.data).length < MIN_TEXT_LENGTH →
      readabilityScore t = 0 := by
    intro t ht
    unfold readabilityScore
    rw [if_pos (Or.inr ht)]
  have hb : readabilityScore "a b c d e f g h i j" = 0 :=
    hshort _ (by decide)
  have hlt : readabilityScore "a b c d e f g h i j" < MIN_READABILITY_SCORE := by
    rw [hb]
    unfold MIN_READABILITY_SCORE
    norm_num
  refine ⟨hrange, hshort, hb, hlt, ?_⟩
  unfold chunkPassesQuality
  simp [hlt]

/-- Witness for C8 applying the rejection clause at a concrete short text. -/
theorem readability_range_and_rejection_witness :
    (stripL ("ok" : String).data).length < MIN_TEXT_LENGTH ∧
      readabilityScore "ok" = 0 ∧ 0 ≤ readabilityScore "ok" := by
  exact ⟨by decide, readability_range_and_rejection.2.1 "ok" (by decide),
    (readability_range_and_rejection.1 "ok").1⟩

/-- C7.  A vector-backend failure never fails the caller: when the ChromaDB
add raises, `store_content_chunk` still persists the structured record and
returns the generated id; the stored record is retrievable by id (for a
fresh id); when the ChromaDB query raises or errors, `search_content`
answers from the structured-store fallback, and a stored record passing the
filters is returned there with the fixed similarity score `0.5`. -/
theorem vector_failure_fallback_ok :
    (∀ (db : List ContentRecord) (chromaErr : String) (content : String)
        (md : ChunkMetadata) (pr : String) (conf : ℚ) (newId now : String),
      (storeContentChunk db true (.error chromaErr) content md pr conf
          newId now).2 = .ok newId ∧
      ∃ r : ContentRecord,
        (storeContentChunk db true (.error chromaErr) content md pr conf
            newId now).1 = db ++ [r] ∧
        r.id = newId ∧ r.content = content ∧ r.confidence_score = conf ∧
        ((∀ r' ∈ db, r'.id ≠ newId) →
          getContentById (storeContentChunk db true (.error chromaErr) content
            md pr conf newId now).1 newId = some r)) ∧
    (∀ (db : List ContentRecord) (msg : String) (m ct : Option String)
        (mc : ℚ) (k : Nat),
      searchContent db (.exn msg) m ct mc k =
          fallbackTextSearch db m ct mc k ∧
        ∀ code, searchContent db (.badStatus code) m ct mc k =
          fallbackTextSearch db m ct mc k) ∧
    (∀ (db : List ContentRecord) (r : ContentRecord) (mc : ℚ) (k : Nat),
      r ∈ db → mc ≤ r.confidence_score → db.length ≤ k →
        (⟨r, 1/2⟩ : SearchHit) ∈ fallbackTextSearch db none none mc k) := by
  refine ⟨?_, ?_, ?_⟩
  · intro db chromaErr content md pr conf newId now
    refine ⟨rfl,
      { id := newId, manufacturer := md.manufacturer,
        model_series := md.model_series, section_title := "Manual Content",
        content := content, content_type := md.content_type,
        confidence_score := conf, source_manual := md.source_manual,
        page_reference := pr, created_at := now },
      rfl, rfl, rfl, rfl, ?_⟩
    intro hfresh
    unfold getContentById storeContentChunk
    rw [if_pos rfl]
    show List.find? _ (db ++ [_]) = _
    rw [List.find?_append]
    have hnone : db.find? (fun r => r.id = newId) = none := by
      rw [List.find?_eq_none]
      intro r hr
      simpa using hfresh r hr
    rw [hnone]
    simp
  · intro db msg m ct mc k
    exact ⟨rfl, fun _ => rfl⟩
  · intro db r mc k hr hconf hk
    unfold fallbackTextSearch
    apply List.mem_map.mpr
    refine ⟨r, ?_, rfl⟩
    rw [List.take_of_length_le (le_trans (List.length_filter_le _ _) hk)]
    apply List.mem_filter.mpr
    refine ⟨hr, ?_⟩
    simp [hconf]

/-- Witness for C7 at a one-record store with the vector backend failing. -/
theorem vector_failure_fallback_ok_witness :
    (storeContentChunk [] true (.error "connection refused") "drum spins"
        ⟨"LG", "WM2000", "maintenance", "m.pdf"⟩ "page_1" (4/5) "id1" "t0").2 =
      .ok "id1" ∧
    ∃ r : ContentRecord,
      (storeContentChunk [] true (.error "connection refused") "drum spins"
          ⟨"LG", "WM2000", "maintenance", "m.pdf"⟩ "page_1" (4/5) "id1" "t0").1 =
        [] ++ [r] ∧
      getContentById (storeContentChunk [] true (.error "connection refused")
          "drum spins" ⟨"LG", "WM2000", "maintenance", "m.pdf"⟩ "page_1" (4/5)
          "id1" "t0").1 "id1" = some r ∧
      (⟨r, 1/2⟩ : SearchHit) ∈
        searchContent ([] ++ [r]) (.exn "connection refused") none none 0 10 := by
  obtain ⟨h1, r, hdb, hid, hcontent, hconf, hget⟩ :=
    vector_failure_fallback_ok.1 [] "connection refused" "drum spins"
      ⟨"LG", "WM2000", "maintenance", "m.pdf"⟩ "page_1" (4/5) "id1" "t0"
  refine ⟨h1, r, hdb, hget (by simp), ?_⟩
  rw [(vector_failure_fallback_ok.2.1 ([] ++ [r]) "connection refused"
      none none 0 10).1]
  refine vector_failure_fallback_ok.2.2 ([] ++ [r]) r 0 10 (by simp) ?_ (by simp)
  rw [hconf]
  norm_num

/-! ## Counterexamples to the chunking, normalization and similarity claims -/

/-- The chunker input refuting C1: a 10-character paragraph followed by a
1300-character paragraph (`clean_text` leaves this text unchanged). -/
def chunkCexInput : String :=
  ⟨List.replicate 10 'b' ++ '\n' :: '\n' :: List.replicate 1300 'a'⟩

set_option maxRecDepth 100000 in
/-- Counterexample to C1: on `chunkCexInput` the chunker emits a first chunk
of length 10 (below `MIN_TEXT_LENGTH = 50`) and a second chunk of length
1312 (above `MAX_CHUNK_SIZE + CHUNK_OVERLAP = 1200`). -/
theorem chunk_bounds_cex :
    (chunkText chunkCexInput 1).map (fun c => (c.content.length, c.chunk_size)) =
        [(10, 10), (1312, 1312)] ∧
      (10 : Nat) < MIN_TEXT_LENGTH ∧
      MAX_CHUNK_SIZE + CHUNK_OVERLAP < (1312 : Nat) := by
  refine ⟨by decide, by decide, by decide⟩

/-- Counterexample to C2: `clean_text` is not idempotent.  The hyphen-rejoin
substitution resumes scanning after each replacement, so `"a- b- c- d"`
cleans to `"ab- cd"`, which cleans again to `"abcd"`. -/
theorem clean_text_not_idempotent :
    cleanText "a- b- c- d" = "ab- cd" ∧ cleanText "ab- cd" = "abcd" ∧
      cleanText (cleanText "a- b- c- d") ≠ cleanText "a- b- c- d" := by
  refine ⟨by decide, by decide, by decide⟩

/-- Counterexample to C5: `clean_text` can lengthen its input — the unit
standardization rewrites `"5in"` (3 characters) to `"5 inches"`
(8 characters). -/
theorem clean_text_lengthens_cex :
    cleanText "5in" = "5 inches" ∧
      ("5in" : String).length < (cleanText "5in").length := by
  refine ⟨by decide, by decide⟩

/-- Counterexample to C6: re-invoking `process_pdf_file` with the id of a
completed job re-enters processing and can end `failed`, so a terminal
status is not stable under all pipeline operations. -/
theorem terminal_status_reinvocation_cex :
    ((getJobStatus (applyOps []
        [.processFile "j1" "m.pdf" (.success 1 1 1) "t1"]) "j1").map
          (·.status) = some "completed") ∧
    ((getJobStatus (applyOps []
        [.processFile "j1" "m.pdf" (.success 1 1 1) "t1",
         .processFile "j1" "m.pdf"
           (.extractionFailed "No readable text found in PDF") "t2"]) "j1").map
          (·.status) = some "failed") := by
  exact ⟨rfl, rfl⟩

/-- Counterexample to C9: across a successful run and a re-invocation with
the same job id, the observed progress assignments are
`[10, 30, 50, 60, 95, 100, 10]` — progress drops from 100 back to 10, so it
is not monotone over sequences that re-invoke `process_pdf_file`. -/
theorem progress_reinvocation_cex :
    opsProgressValues
        [.processFile "j1" "m.pdf" (.success 1 1 1) "t1",
         .processFile "j1" "m.pdf"
           (.extractionFailed "No readable text found in PDF") "t2"] =
      [10, 30, 50, 60, 95, 100, 10] ∧
    ¬ List.Chain' (· ≤ ·) (opsProgressValues
        [.processFile "j1" "m.pdf" (.success 1 1 1) "t1",
         .processFile "j1" "m.pdf"
           (.extractionFailed "No readable text found in PDF") "t2"]) := by
  have hb : batchProgress 1 1 0 = 95 := by
    unfold batchProgress
    norm_num
  have hbs : batchStarts 1 1 = [0] := by decide
  have hlist : opsProgressValues
      [.processFile "j1" "m.pdf" (.success 1 1 1) "t1",
       .processFile "j1" "m.pdf"
         (.extractionFailed "No readable text found in PDF") "t2"] =
      [10, 30, 50, 60, 95, 100, 10] := by
    simp [opsProgressValues, runUpdates, progressValues, hbs, hb]
  refine ⟨hlist, ?_⟩
  rw [hlist]
  intro hchain
  have h1 : (100 : ℚ) ≤ 10 := by
    have := List.chain'_cons.mp hchain
    have := List.chain'_cons.mp this.2
    have := List.chain'_cons.mp this.2
    have := List.chain'_cons.mp this.2
    have := List.chain'_cons.mp this.2
    exact (List.chain'_cons.mp this.2).1
  norm_num at h1

/-- Counterexample to the symmetry and self-similarity parts of C4:
`similarity("","") = 0`, not `1.0`; and the greedy matcher is asymmetric on
`"ab"` versus `"bacb"`. -/
theorem similarity_claims_cex :
    textSimilarity "" "" = 0 ∧ (0 : ℚ) ≠ 1 ∧
      textSimilarity "ab" "bacb" = 2/3 ∧ textSimilarity "bacb" "ab" = 1/3 ∧
      textSimilarity "ab" "bacb" ≠ textSimilarity "bacb" "ab" := by
  have hs1 : stripL (lowerL ("ab" : String).data) = ['a', 'b'] := by decide
  have hs2 : stripL (lowerL ("bacb" : String).data) = ['b', 'a', 'c', 'b'] := by
    decide
  have hm1 : matchTotal ['a', 'b'] ['b', 'a', 'c', 'b']
      (b2jOf ['b', 'a', 'c', 'b'])
      (['a', 'b'].length + ['b', 'a', 'c', 'b'].length + 1)
      (0, ['a', 'b'].length, 0, ['b', 'a', 'c', 'b'].length) = 2 := by decide
  have hm2 : matchTotal ['b', 'a', 'c', 'b'] ['a', 'b'] (b2jOf ['a', 'b'])
      (['b', 'a', 'c', 'b'].length + ['a', 'b'].length + 1)
      (0, ['b', 'a', 'c', 'b'].length, 0, ['a', 'b'].length) = 1 := by decide
  have hv1 : textSimilarity "ab" "bacb" = 2/3 := by
    unfold textSimilarity
    rw [if_neg (by simp)]
    rw [hs1, hs2]
    unfold seqRatioQ
    rw [hm1]
    norm_num
  have hv2 : textSimilarity "bacb" "ab" = 1/3 := by
    unfold textSimilarity
    rw [if_neg (by simp)]
    rw [hs1, hs2]
    unfold seqRatioQ
    rw [hm2]
    norm_num
  refine ⟨rfl, by norm_num, hv1, hv2, ?_⟩
  rw [hv1, hv2]
  norm_num

/-- The otherwise-clean 98-character base text of the C3 counterexample:
nineteen words `abcd` and a final `abc`. -/
def c3Base : String :=
  ⟨(List.replicate 19 ['a', 'b', 'c', 'd', ' ']).flatten ++ ['a', 'b', 'c']⟩

/-- The base text with two special characters `@@` inserted at the end. -/
def c3Mod : String := ⟨c3Base.data ++ ['@', '@']⟩

theorem readabilityScore_as_factors (t : String)
    (h1 : ¬(t = "" ∨ (stripL t.data).length < MIN_TEXT_LENGTH))
    (h2 : ¬(splitWS t.data.length t.data).isEmpty = true) :
    readabilityScore t = scoreOfFactors (scoreFactorsOf t) := by
  unfold readabilityScore
  rw [if_neg h1, if_neg h2]

theorem c3Base_score : readabilityScore c3Base = 9/10 := by
  have e1 : (stripL c3Base.data).length = 98 := by decide
  have e2 : ((splitWS c3Base.data.length c3Base.data).map List.length).sum = 79 := by
    decide
  have e3 : (splitWS c3Base.data.length c3Base.data).length = 20 := by decide
  have e4 : c3Base.data.countP isSpecialChar = 0 := by decide
  have e5 : c3Base.data.length = 98 := by decide
  have e6 : ((splitSentences c3Base.data.length [] c3Base.data).map stripL).filter
      (· ≠ []) = [c3Base.data] := by decide
  have e7 : c3Base.data.countP isAsciiAlpha = 79 := by decide
  have e8 : splitNl c3Base.data.length [] c3Base.data = [c3Base.data] := by decide
  have e9 : keywordCount c3Base.data = 0 := by decide
  rw [readabilityScore_as_factors c3Base (by decide) (by decide)]
  unfold scoreFactorsOf scoreOfFactors lengthAdjOf wordLenAdjOf specialAdjOf
    sentenceAdjOf alphaAdjOf dupAdjOf kwAdjOf
  rw [e2, e3, e6, e8, e1, e4, e5, e7, e9]
  simp only [List.map_cons, List.map_nil, List.sum_cons, List.sum_nil,
    List.length_cons, List.length_nil, List.isEmpty_cons, e3,
    List.dedup_cons_of_not_mem (List.not_mem_nil _), List.dedup_nil]
  norm_num

theorem c3Mod_score : readabilityScore c3Mod = 1 := by
  have e1 : (stripL c3Mod.data).length = 100 := by decide
  have e2 : ((splitWS c3Mod.data.length c3Mod.data).map List.length).sum = 81 := by
    decide
  have e3 : (splitWS c3Mod.data.length c3Mod.data).length = 20 := by decide
  have e4 : c3Mod.data.countP isSpecialChar = 2 := by decide
  have e5 : c3Mod.data.length = 100 := by decide
  have e6 : ((splitSentences c3Mod.data.length [] c3Mod.data).map stripL).filter
      (· ≠ []) = [c3Mod.data] := by decide
  have e7 : c3Mod.data.countP isAsciiAlpha = 79 := by decide
  have e8 : splitNl c3Mod.data.length [] c3Mod.data = [c3Mod.data] := by decide
  have e9 : keywordCount c3Mod.data = 0 := by decide
  have e10 : (splitWS c3Mod.data.length c3Mod.data).length = 20 := e3
  rw [readabilityScore_as_factors c3Mod (by decide) (by decide)]
  unfold scoreFactorsOf scoreOfFactors lengthAdjOf wordLenAdjOf specialAdjOf
    sentenceAdjOf alphaAdjOf dupAdjOf kwAdjOf
  rw [e2, e3, e6, e8, e1, e4, e5, e7, e9]
  simp only [List.map_cons, List.map_nil, List.sum_cons, List.sum_nil,
    List.length_cons, List.length_nil, List.isEmpty_cons, e10,
    List.dedup_cons_of_not_mem (List.not_mem_nil _), List.dedup_nil]
  norm_num

/-- Counterexample to C3: `c3Base` is otherwise clean (no special characters
at all) and scores `0.9`; appending the two special characters `@@` raises
the score to `1.0`, so inserting special characters can increase the
score. -/
theorem readability_special_insertion_cex :
    c3Mod.data = c3Base.data ++ ['@', '@'] ∧
      isSpecialChar '@' = true ∧
      c3Base.data.countP isSpecialChar = 0 ∧
      readabilityScore c3Base = 9/10 ∧ readabilityScore c3Mod = 1 ∧
      readabilityScore c3Base < readabilityScore c3Mod := by
  refine ⟨rfl, by decide, by decide, c3Base_score, c3Mod_score, ?_⟩
  rw [c3Base_score, c3Mod_score]
  norm_num

theorem div_le_div_of_nonneg_right' {a b c : ℚ} (hab : a ≤ b) (hc : 0 ≤ c) :
    a / c ≤ b / c := by
  rcases eq_or_lt_of_le hc with hc0 | hcpos
  · rw [← hc0, div_zero, div_zero]
  · exact (div_le_div_iff_of_pos_right hcpos).mpr hab

/-- C3 amended.  The score's special-character term is antitone in the
special-character count (at fixed text length), its keyword term is
monotone in the matched-keyword count, and the clamped total is monotone in
those two terms when the other factors are unchanged; full monotonicity
under insertion fails (see the counterexample) because an insertion also
shifts the length, word-length, sentence and alphabetic factors. -/
theorem readability_factor_monotone :
    (∀ s1 s2 len : Nat, s1 ≤ s2 → specialAdjOf s2 len ≤ specialAdjOf s1 len) ∧
    (∀ k1 k2 : Nat, k1 ≤ k2 → kwAdjOf k1 ≤ kwAdjOf k2) ∧
    (∀ f g : ScoreFactors, f.lengthAdj = g.lengthAdj →
      f.wordLenAdj = g.wordLenAdj → f.sentenceAdj = g.sentenceAdj →
      f.alphaAdj = g.alphaAdj → f.dupAdj = g.dupAdj →
      f.specialAdj ≤ g.specialAdj → f.kwAdj ≤ g.kwAdj →
      scoreOfFactors f ≤ scoreOfFactors g) := by
  refine ⟨?_, ?_, ?_⟩
  · intro s1 s2 len h
    have hmono : (s1 : ℚ) / (len : ℚ) ≤ (s2 : ℚ) / (len : ℚ) :=
      div_le_div_of_nonneg_right' (by exact_mod_cast h) (Nat.cast_nonneg len)
    unfold specialAdjOf
    split_ifs with ha hb hb
    · exact le_refl _
    · norm_num
    · exact absurd (lt_of_lt_of_le hb hmono) ha
    · exact le_refl _
  · intro k1 k2 h
    unfold kwAdjOf
    split_ifs with h1 h2 h2
    · exact min_le_min (le_refl _)
        (mul_le_mul_of_nonneg_right (by exact_mod_cast h) (by norm_num))
    · omega
    · exact le_min (by norm_num) (by positivity)
    · exact le_refl _
  · intro f g h1 h2 h3 h4 h5 hsp hkw
    unfold scoreOfFactors
    rw [h1, h2, h3, h4, h5]
    gcongr

/-- Witness for C3's amended monotonicity at concrete factor values. -/
theorem readability_factor_monotone_witness :
    specialAdjOf 9 100 ≤ specialAdjOf 3 100 ∧ kwAdjOf 1 ≤ kwAdjOf 3 ∧
      scoreOfFactors ⟨0, 0, -3/10, 1/10, 0, 0, 1/20⟩ ≤
        scoreOfFactors ⟨0, 0, 0, 1/10, 0, 0, 3/20⟩ := by
  refine ⟨readability_factor_monotone.1 3 9 100 (by norm_num),
    readability_factor_monotone.2.1 1 3 (by norm_num),
    readability_factor_monotone.2.2 _ _ rfl rfl rfl rfl rfl (by norm_num)
      (by norm_num)⟩

theorem batchProgress_ge (n b i : Nat) : 60 ≤ batchProgress n b i := by
  unfold batchProgress
  refine le_min ?_ (by norm_num)
  have : (0 : ℚ) ≤ 40 * (((i : ℚ) + (b : ℚ)) / (n : ℚ)) := by positivity
  linarith

theorem batchProgress_le (n b i : Nat) : batchProgress n b i ≤ 95 :=
  min_le_right _ _

theorem batchProgress_mono (n b : Nat) {i j : Nat} (h : i ≤ j) :
    batchProgress n b i ≤ batchProgress n b j := by
  unfold batchProgress
  refine min_le_min ?_ (le_refl _)
  have : ((i : ℚ) + (b : ℚ)) / (n : ℚ) ≤ ((j : ℚ) + (b : ℚ)) / (n : ℚ) :=
    div_le_div_of_nonneg_right'
      (by have : (i : ℚ) ≤ (j : ℚ) := by exact_mod_cast h
          linarith)
      (Nat.cast_nonneg n)
  linarith

theorem batch_values_chain (n b : Nat) :
    List.Chain' (· ≤ ·) ((batchStarts n b).map (fun i => batchProgress n b i)) := by
  unfold batchStarts
  rw [List.map_map]
  rw [List.chain'_map]
  cases hk : (n + b - 1) / b with
  | zero => simp
  | succ k =>
    rw [List.chain'_range_succ]
    intro m _
    exact batchProgress_mono n b (Nat.mul_le_mul_right b (Nat.le_succ m))

theorem filterMap_progress_batches (n b : Nat) (l : List Nat) :
    List.filterMap (fun u : JobUpdate => match u with
        | .setProcessing => some 10
        | .setProgress p _ => some p
        | .complete _ _ => some 100
        | .fail _ _ => none)
      (l.map (fun i =>
        JobUpdate.setProgress (batchProgress n b i) "Generating embeddings")) =
      l.map (fun i => batchProgress n b i) := by
  induction l with
  | nil => rfl
  | cons x xs ih => simp only [List.map_cons, List.filterMap_cons]; rw [ih]

theorem progressValues_success (n b s : Nat) (t : String) :
    progressValues (runUpdates (.success n b s) t) =
      [10, 30, 50, 60] ++
        (batchStarts n b).map (fun i => batchProgress n b i) ++ [100] := by
  unfold progressValues runUpdates
  rw [List.filterMap_append, List.filterMap_append,
    filterMap_progress_batches]
  simp [List.filterMap_cons]

theorem progressValues_batchFailed (n b d : Nat) (e t : String) :
    progressValues (runUpdates (.batchFailed n b d e) t) =
      [10, 30, 50, 60] ++
        ((batchStarts n b).take d).map (fun i => batchProgress n b i) := by
  unfold progressValues runUpdates
  rw [List.filterMap_append, List.filterMap_append,
    filterMap_progress_batches]
  simp [List.filterMap_cons]

/-- C9 amended.  Within a single invocation of `process_pdf_file` the
assigned progress values are monotonically nondecreasing for every outcome,
and a successful invocation ends at exactly 100; monotonicity across
re-invocations with the same job id fails (see the counterexample), since a
re-invocation resets progress to 10. -/
theorem progress_monotone_within_run :
    (∀ (e t : String),
      List.Chain' (· ≤ ·) (progressValues (runUpdates (.extractionFailed e) t))) ∧
    (∀ t : String,
      List.Chain' (· ≤ ·) (progressValues (runUpdates .noChunks t))) ∧
    (∀ (n b d : Nat) (e t : String),
      List.Chain' (· ≤ ·) (progressValues (runUpdates (.batchFailed n b d e) t))) ∧
    (∀ (n b s : Nat) (t : String),
      List.Chain' (· ≤ ·) (progressValues (runUpdates (.success n b s) t)) ∧
      (progressValues (runUpdates (.success n b s) t)).getLast? = some 100) := by
  have hbase : List.Chain' (· ≤ ·) ([10, 30, 50, 60] : List ℚ) := by
    norm_num [List.chain'_cons]
  have hjoin : ∀ (n b : Nat) (bl : List Nat),
      ∀ x ∈ ([10, 30, 50, 60] : List ℚ).getLast?,
        ∀ y ∈ (bl.map (fun i => batchProgress n b i)).head?, x ≤ y := by
    intro n b bl x hx y hy
    obtain rfl : (60 : ℚ) = x := by simpa using hx
    rcases List.mem_map.mp (List.mem_of_mem_head? hy) with ⟨i, _, rfl⟩
    exact batchProgress_ge n b i
  refine ⟨?_, ?_, ?_, ?_⟩
  · intro e t
    show List.Chain' (· ≤ ·) [(10 : ℚ)]
    simp
  · intro t
    show List.Chain' (· ≤ ·) [(10 : ℚ), 30]
    norm_num [List.chain'_cons]
  · intro n b d e t
    rw [progressValues_batchFailed]
    refine List.Chain'.append hbase ?_ (hjoin n b _)
    rw [List.map_take]
    exact List.Chain'.prefix (batch_values_chain n b) ( List.take_prefix _ _)
  · intro n b s t
    rw [progressValues_success]
    constructor
    · refine List.Chain'.append
        (List.Chain'.append hbase (batch_values_chain n b) (hjoin n b _))
        (by simp) ?_
      intro x hx y hy
      obtain rfl : (100 : ℚ) = y := by simpa using hy
      have hxmem : x ∈ ([10, 30, 50, 60] : List ℚ) ++
          (batchStarts n b).map (fun i => batchProgress n b i) :=
        List.mem_of_mem_getLast? hx
      rcases List.mem_append.mp hxmem with hmem | hmem
      · have : x = 10 ∨ x = 30 ∨ x = 50 ∨ x = 60 := by simpa using hmem
        rcases this with rfl | rfl | rfl | rfl <;> norm_num
      · rcases List.mem_map.mp hmem with ⟨i, _, rfl⟩
        exact le_trans (batchProgress_le n b i) (by norm_num)
    · rw [List.getLast?_append_of_ne_nil _ (by simp)]
      simp

/-- Witness for C9's amended monotonicity at a concrete successful run with
three chunks and batch size two. -/
theorem progress_monotone_within_run_witness :
    List.Chain' (· ≤ ·) (progressValues (runUpdates (.success 3 2 3) "t1")) ∧
      (progressValues (runUpdates (.success 3 2 3) "t1")).getLast? = some 100 ∧
      List.Chain' (· ≤ ·)
        (progressValues (runUpdates (.extractionFailed "no text") "t2")) := by
  exact ⟨(progress_monotone_within_run.2.2.2 3 2 3 "t1").1,
    (progress_monotone_within_run.2.2.2 3 2 3 "t1").2,
    progress_monotone_within_run.1 "no text" "t2"⟩

theorem find?_map_regSet (es : List (String × ProcessingJob))
    (id' id : String) (j : ProcessingJob) (h : id' ≠ id) :
    List.find? (fun e => e.1 = id)
        (es.map (fun e => if e.1 = id' then (id', j) else e)) =
      List.find? (fun e => e.1 = id) es := by
  induction es with
  | nil => rfl
  | cons e es ih =>
    by_cases he : e.1 = id'
    · rw [List.map_cons, if_pos he,
        List.find?_cons_of_neg _ (by simpa using h),
        List.find?_cons_of_neg _ (by rw [he]; simpa using h)]
      exact ih
    · rw [List.map_cons, if_neg he]
      by_cases hid : e.1 = id
      · rw [List.find?_cons_of_pos _ (by simpa using hid),
          List.find?_cons_of_pos _ (by simpa using hid)]
      · rw [List.find?_cons_of_neg _ (by simpa using hid),
          List.find?_cons_of_neg _ (by simpa using hid)]
        exact ih

theorem regGet_regSet_ne (reg : JobRegistry) (id' id : String)
    (j : ProcessingJob) (h : id' ≠ id) :
    regGet (regSet reg id' j) id = regGet reg id := by
  unfold regSet
  split
  · unfold regGet
    rw [find?_map_regSet reg id' id j h]
  · unfold regGet
    rw [List.find?_append]
    have h0 : List.find? (fun e => e.1 = id) [(id', j)] = none := by
      simp [h]
    rw [h0]
    cases List.find? (fun e => e.1 = id) reg <;> rfl

theorem regGet_regDel_ne (reg : JobRegistry) (id' id : String) (h : id' ≠ id) :
    regGet (regDel reg id') id = regGet reg id := by
  unfold regGet regDel
  congr 1
  induction reg with
  | nil => rfl
  | cons e es ih =>
    by_cases he : e.1 = id'
    · rw [List.filter_cons_of_neg (by simpa using he),
        List.find?_cons_of_neg _ (by rw [he]; simpa using h)]
      exact ih
    · rw [List.filter_cons_of_pos (by simpa using he)]
      by_cases hid : e.1 = id
      · rw [List.find?_cons_of_pos _ (by simpa using hid),
          List.find?_cons_of_pos _ (by simpa using hid)]
      · rw [List.find?_cons_of_neg _ (by simpa using hid),
          List.find?_cons_of_neg _ (by simpa using hid)]
        exact ih

theorem regGet_applyOp_untouched (reg : JobRegistry) (op : PipelineOp)
    (id : String) (h : ¬opTouches op id) :
    regGet (applyOp reg op) id = regGet reg id := by
  cases op with
  | processFile jobId filename outcome now =>
    have hne : jobId ≠ id := h
    unfold applyOp processPdfFile
    exact regGet_regSet_ne _ _ _ _ hne
  | deleteJob jobId =>
    exact regGet_regDel_ne _ _ _ h

theorem mem_regSet (reg : JobRegistry) (id : String) (j : ProcessingJob)
    (e : String × ProcessingJob) (he : e ∈ regSet reg id j) :
    e ∈ reg ∨ e.2 = j := by
  unfold regSet at he
  split at he
  · rcases List.mem_map.mp he with ⟨e0, he0, rfl⟩
    by_cases h0 : e0.1 = id
    · rw [if_pos h0]
      exact Or.inr rfl
    · rw [if_neg h0]
      exact Or.inl he0
  · rcases List.mem_append.mp he with h0 | h0
    · exact Or.inl h0
    · rcases List.mem_singleton.mp h0 with rfl
      exact Or.inr rfl

theorem runFold_completedAt (o : RunOutcome) (now : String) (j0 : ProcessingJob) :
    ((runUpdates o now).foldl applyUpdate j0).completed_at = some now := by
  cases o with
  | extractionFailed e => rfl
  | noChunks => rfl
  | batchFailed n b d e =>
    unfold runUpdates
    rw [List.foldl_append]
    rfl
  | success n b s =>
    unfold runUpdates
    rw [List.foldl_append]
    rfl

/-- Registry invariant: terminal jobs carry a completion timestamp. -/
def RegInv (reg : JobRegistry) : Prop :=
  ∀ e ∈ reg, (e.2.status = "completed" ∨ e.2.status = "failed") →
    e.2.completed_at ≠ none

theorem regInv_applyOp (reg : JobRegistry) (op : PipelineOp) (h : RegInv reg) :
    RegInv (applyOp reg op) := by
  cases op with
  | processFile jobId filename outcome now =>
    intro e he hterm
    unfold applyOp processPdfFile at he
    rcases mem_regSet _ _ _ _ he with h0 | h0
    · exact h e h0 hterm
    · rw [h0, runFold_completedAt]
      simp
  | deleteJob jobId =>
    intro e he hterm
    unfold applyOp regDel at he
    exact h e (List.mem_of_mem_filter he) hterm

theorem regInv_applyOps (reg : JobRegistry) (ops : List PipelineOp)
    (h : RegInv reg) : RegInv (applyOps reg ops) := by
  induction ops generalizing reg with
  | nil => exact h
  | cons op rest ih => exact ih _ (regInv_applyOp _ _ h)

/-- C6 amended.  Once a job is terminal its `completed_at` is set, and its
status (indeed its whole record) is stable under any further pipeline
operations that neither re-invoke `process_pdf_file` with its id nor delete
it; stability under re-invocation fails (see the counterexample), since
`process_pdf_file` reuses and resets a known job id. -/
theorem terminal_status_stable_amended :
    (∀ (ops : List PipelineOp) (jobId : String) (j : ProcessingJob),
      getJobStatus (applyOps [] ops) jobId = some j →
      (j.status = "completed" ∨ j.status = "failed") →
      j.completed_at ≠ none) ∧
    (∀ (reg : JobRegistry) (ops : List PipelineOp) (jobId : String)
        (j : ProcessingJob),
      getJobStatus reg jobId = some j →
      (j.status = "completed" ∨ j.status = "failed") →
      (∀ op ∈ ops, ¬opTouches op jobId) →
      getJobStatus (applyOps reg ops) jobId = some j) := by
  constructor
  · intro ops jobId j hget hterm
    have hinv : RegInv (applyOps [] ops) :=
      regInv_applyOps [] ops (by intro e he; cases he)
    unfold getJobStatus regGet at hget
    rcases hfind : List.find? (fun e => e.1 = jobId) (applyOps [] ops) with
      _ | e
    · rw [hfind] at hget
      cases hget
    · rw [hfind] at hget
      obtain rfl : e.2 = j := by injection hget
      exact hinv e (List.mem_of_find?_eq_some hfind) hterm
  · intro reg ops jobId j hget hterm huntouched
    induction ops generalizing reg with
    | nil => exact hget
    | cons op rest ih =>
      show getJobStatus (applyOps (applyOp reg op) rest) jobId = some j
      refine ih (applyOp reg op) ?_ (fun o ho => huntouched o (List.mem_cons_of_mem _ ho))
      show regGet (applyOp reg op) jobId = some j
      rw [regGet_applyOp_untouched reg op jobId
        (huntouched op (List.mem_cons_self _ _))]
      exact hget

/-- Witness for C6's amended stability: a completed job survives unrelated
operations with its timestamp set. -/
theorem terminal_status_stable_amended_witness :
    ∃ j : ProcessingJob,
      getJobStatus (applyOps [] [.processFile "j1" "m.pdf" (.success 1 1 1) "t1"])
          "j1" = some j ∧
        j.status = "completed" ∧ j.completed_at ≠ none ∧
        getJobStatus (applyOps
          (applyOps [] [.processFile "j1" "m.pdf" (.success 1 1 1) "t1"])
          [.processFile "j2" "o.pdf" (.extractionFailed "bad") "t2",
           .deleteJob "j3"]) "j1" = some j := by
  refine ⟨((runUpdates (.success 1 1 1) "t1").foldl applyUpdate
    (newJob "j1" "m.pdf" "t1")), rfl, rfl, ?_, ?_⟩
  · rw [runFold_completedAt]
    simp
  · refine terminal_status_stable_amended.2 _ _ "j1" _ rfl (Or.inl rfl) ?_
    intro op hop
    rcases List.mem_cons.mp hop with rfl | hop
    · simp [opTouches]
    · rcases List.mem_cons.mp hop with rfl | hop
      · simp [opTouches]
      · cases hop

/-- Upper-bound invariant of the chunk loop state. -/
def ChunkBoundInv (P : Nat) (st : List Chunk × List Char) : Prop :=
  (∀ c ∈ st.1, c.content.length ≤
    max (MAX_CHUNK_SIZE + CHUNK_OVERLAP) (P + CHUNK_OVERLAP + 2)) ∧
  st.2.length ≤ max (MAX_CHUNK_SIZE + CHUNK_OVERLAP) (P + CHUNK_OVERLAP + 2)

/-- Minimum-length invariant of the chunk loop state: once a chunk has been
emitted, the running buffer never drops below `MIN_TEXT_LENGTH` again. -/
def ChunkMinInv (st : List Chunk × List Char) : Prop :=
  (st.1 ≠ [] → MIN_TEXT_LENGTH ≤ st.2.length) ∧ (st.2 = [] → st.1 = [])

theorem chunkStep_inv (pn P : Nat) (st : List Chunk × List Char) (p : List Char)
    (hpl : p.length ≤ P) (hpne : p ≠ [])
    (hU : ChunkBoundInv P st) (hL : ChunkMinInv st) :
    ChunkBoundInv P (chunkStep pn st p) ∧ ChunkMinInv (chunkStep pn st p) := by
  obtain ⟨hU1, hU2⟩ := hU
  obtain ⟨hL1, hL2⟩ := hL
  simp only [ChunkBoundInv, ChunkMinInv] at *
  unfold chunkStep
  by_cases hcond : MAX_CHUNK_SIZE < st.2.length + p.length ∧ st.2 ≠ []
  · rw [if_pos hcond, if_pos (by norm_num [CHUNK_OVERLAP])]
    have hdrop : (st.2.drop (st.2.length - CHUNK_OVERLAP)).length =
        st.2.length - (st.2.length - CHUNK_OVERLAP) := List.length_drop _ _
    have hlen : (st.2.drop (st.2.length - CHUNK_OVERLAP) ++
        '\n' :: '\n' :: p).length =
        (st.2.length - (st.2.length - CHUNK_OVERLAP)) + (2 + p.length) := by
      rw [List.length_append, hdrop]
      simp
      omega
    refine ⟨⟨?_, ?_⟩, ?_, ?_⟩
    · intro c hc
      rcases List.mem_append.mp hc with hc | hc
      · exact hU1 c hc
      · rcases List.mem_singleton.mp hc with rfl
        show (String.mk (stripL st.2)).length ≤ _
        calc (String.mk (stripL st.2)).length = (stripL st.2).length := rfl
          _ ≤ st.2.length := stripL_length_le st.2
          _ ≤ _ := hU2
    · rw [hlen]
      unfold MAX_CHUNK_SIZE CHUNK_OVERLAP at *
      omega
    · intro _
      rw [hlen]
      unfold MAX_CHUNK_SIZE CHUNK_OVERLAP MIN_TEXT_LENGTH at *
      omega
    · intro hnil
      exact absurd hnil (by simp)
  · rw [if_neg hcond]
    by_cases hcur : st.2 = []
    · rw [if_pos hcur]
      have hklocal : st.1 = [] := hL2 hcur
      refine ⟨⟨hU1, ?_⟩, ?_, ?_⟩
      · calc p.length ≤ P := hpl
          _ ≤ _ := by unfold MAX_CHUNK_SIZE CHUNK_OVERLAP; omega
      · intro hne
        exact absurd hklocal hne
      · intro hpnil
        exact absurd hpnil hpne
    · rw [if_neg hcur]
      have hle : st.2.length + p.length ≤ MAX_CHUNK_SIZE := by
        rcases not_and_or.mp hcond with h | h
        · omega
        · exact absurd hcur h
      have hlen : (st.2 ++ '\n' :: '\n' :: p).length =
          st.2.length + (2 + p.length) := by
        rw [List.length_append]
        simp
        omega
      refine ⟨⟨hU1, ?_⟩, ?_, ?_⟩
      · rw [hlen]
        unfold MAX_CHUNK_SIZE CHUNK_OVERLAP at *
        omega
      · intro hne
        rw [hlen]
        have := hL1 hne
        unfold MIN_TEXT_LENGTH at *
        omega
      · intro hnil
        exact absurd hnil (by simp [hcur])

theorem chunkFold_inv (pn P : Nat) (paras : List (List Char))
    (hp : ∀ p ∈ paras, p.length ≤ P ∧ p ≠ []) :
    ∀ st : List Chunk × List Char, ChunkBoundInv P st → ChunkMinInv st →
      ChunkBoundInv P (paras.foldl (chunkStep pn) st) ∧
        ChunkMinInv (paras.foldl (chunkStep pn) st) := by
  induction paras with
  | nil => exact fun st hU hL => ⟨hU, hL⟩
  | cons p ps ih =>
    intro st hU hL
    have hstep := chunkStep_inv pn P st p (hp p (List.mem_cons_self _ _)).1
      (hp p (List.mem_cons_self _ _)).2 hU hL
    exact ih (fun q hq => hp q (List.mem_cons_of_mem _ hq)) _ hstep.1 hstep.2

theorem mem_le_maxParaLen (paras : List (List Char)) (p : List Char)
    (hp : p ∈ paras) : p.length ≤ maxParaLen paras := by
  unfold maxParaLen
  induction paras with
  | nil => cases hp
  | cons q qs ih =>
    rcases List.mem_cons.mp hp with rfl | hp
    · exact le_max_left _ _
    · exact le_trans (ih hp) (le_max_right _ _)

theorem paragraphsOf_ne_nil (cleaned : String) (p : List Char)
    (hp : p ∈ paragraphsOf cleaned) : p ≠ [] := by
  unfold paragraphsOf at hp
  have := List.of_mem_filter hp
  simpa using this

/-- C1 amended.  Every chunk's content is bounded by the larger of
`MAX_CHUNK_SIZE + CHUNK_OVERLAP` and (longest paragraph + CHUNK_OVERLAP + 2)
— the stated bound `MAX_CHUNK_SIZE + CHUNK_OVERLAP` alone fails when a
single paragraph exceeds it — and the minimum-length guarantee holds only
for the final chunk (on its `chunk_size` field, the buffer length before
stripping): intermediate chunks may be far shorter (see the
counterexample). -/
theorem chunk_size_bounds_amended :
    (∀ (t : String) (pn : Nat), ∀ c ∈ chunkText t pn,
      c.content.length ≤
        max (MAX_CHUNK_SIZE + CHUNK_OVERLAP)
          (maxParaLen (paragraphsOf (cleanText t)) + CHUNK_OVERLAP + 2)) ∧
    (∀ (t : String) (pn : Nat) (c : Chunk),
      (chunkText t pn).getLast? = some c → MIN_TEXT_LENGTH ≤ c.chunk_size) := by
  have hinv : ∀ (t : String) (pn : Nat),
      ChunkBoundInv (maxParaLen (paragraphsOf (cleanText t)))
        ((paragraphsOf (cleanText t)).foldl (chunkStep pn) ([], [])) ∧
      ChunkMinInv ((paragraphsOf (cleanText t)).foldl (chunkStep pn) ([], [])) := by
    intro t pn
    refine chunkFold_inv pn _ _ ?_ ([], []) ⟨by simp, by simp⟩ ⟨by simp, fun _ => rfl⟩
    intro p hp
    exact ⟨mem_le_maxParaLen _ p hp, paragraphsOf_ne_nil _ p hp⟩
  constructor
  · intro t pn c hc
    simp only [chunkText] at hc
    split at hc
    · cases hc
    · unfold chunkCore at hc
      obtain ⟨⟨hU1, hU2⟩, _⟩ := hinv t pn
      split at hc
      · rcases List.mem_append.mp hc with hc | hc
        · exact hU1 c hc
        · rcases List.mem_singleton.mp hc with rfl
          exact le_trans (stripL_length_le _) hU2
      · exact hU1 c hc
  · intro t pn c hc
    simp only [chunkText] at hc
    split at hc
    · cases hc
    · unfold chunkCore at hc
      obtain ⟨_, hL1, hL2⟩ := hinv t pn
      split at hc
      · next hcond =>
        rw [List.getLast?_concat] at hc
        obtain rfl : (⟨⟨stripL ((paragraphsOf (cleanText t)).foldl (chunkStep pn)
            ([], [])).2⟩, pn, ((paragraphsOf (cleanText t)).foldl (chunkStep pn)
            ([], [])).2.length⟩ : Chunk) = c := by injection hc
        exact hcond.2
      · next hcond =>
        have hnil : ((paragraphsOf (cleanText t)).foldl (chunkStep pn)
            ([], [])).1 ≠ [] := by
          intro hn
          rw [hn] at hc
          cases hc
        have h50 := hL1 hnil
        rcases not_and_or.mp hcond with hcnil | hclen
        · have hcur : ((paragraphsOf (cleanText t)).foldl (chunkStep pn)
              ([], [])).2 = [] := by
            by_contra hne
            exact hcnil hne
          exact absurd (hL2 hcur) hnil
        · exact absurd h50 hclen

set_option maxRecDepth 100000 in
/-- Witness for C1's amended bounds on the counterexample input: both
chunks respect the amended upper bound (the longest paragraph has 1300
characters) and the final chunk's `chunk_size` is at least 50. -/
theorem chunk_size_bounds_amended_witness :
    (∀ c ∈ chunkText chunkCexInput 1,
      c.content.length ≤
        max (MAX_CHUNK_SIZE + CHUNK_OVERLAP)
          (maxParaLen (paragraphsOf (cleanText chunkCexInput)) +
            CHUNK_OVERLAP + 2)) ∧
      ∃ c : Chunk, (chunkText chunkCexInput 1).getLast? = some c ∧
        MIN_TEXT_LENGTH ≤ c.chunk_size := by
  constructor
  · exact chunk_size_bounds_amended.1 chunkCexInput 1
  · rcases hc : (chunkText chunkCexInput 1).getLast? with _ | c
    · exact absurd hc (by decide)
    · exact ⟨c, rfl, chunk_size_bounds_amended.2 chunkCexInput 1 c hc⟩

/-! ## Character-class facts for the plain-prose fragment

`okChar` is the ASCII letters-and-spaces alphabet on which most cleaning
passes are provably inert. -/

def okChar (c : Char) : Bool := isAsciiAlpha c || c = ' '

theorem uint32_eq_of_toNat_eq {a b : UInt32} (h : a.toNat = b.toNat) : a = b := by
  rcases a with ⟨⟨av, hav⟩⟩
  rcases b with ⟨⟨bv, hbv⟩⟩
  simp only [UInt32.toNat] at h
  subst h
  rfl

theorem char_eq_of_toNat_eq {c d : Char} (h : c.toNat = d.toNat) : c = d :=
  Char.eq_of_val_eq (uint32_eq_of_toNat_eq h)

theorem okChar_elim {c : Char} (h : okChar c = true) :
    (97 ≤ c.toNat ∧ c.toNat ≤ 122) ∨ (65 ≤ c.toNat ∧ c.toNat ≤ 90) ∨ c = ' ' := by
  unfold okChar isAsciiAlpha at h
  simp only [Bool.or_eq_true, Bool.and_eq_true, decide_eq_true_eq] at h
  rcases h with (⟨h1, h2⟩ | ⟨h1, h2⟩) | h
  · exact Or.inl ⟨h1, h2⟩
  · exact Or.inr (Or.inl ⟨h1, h2⟩)
  · exact Or.inr (Or.inr h)

theorem okChar_ne {c : Char} (h : okChar c = true) (d : Char)
    (hd : okChar d = false) : c ≠ d := by
  intro he
  rw [he, hd] at h
  cases h

theorem okChar_not_digit {c : Char} (h : okChar c = true) :
    isDigitPy c = false := by
  rcases okChar_elim h with ⟨h1, h2⟩ | ⟨h1, h2⟩ | rfl
  · unfold isDigitPy
    simp only [Bool.and_eq_false_iff, decide_eq_false_iff_not]
    right
    intro hle
    have hle' : c.toNat ≤ 57 := hle
    omega
  · unfold isDigitPy
    simp only [Bool.and_eq_false_iff, decide_eq_false_iff_not]
    right
    intro hle
    have hle' : c.toNat ≤ 57 := hle
    omega
  · decide

theorem okChar_isSpacePy {c : Char} (h : okChar c = true) :
    isSpacePy c = decide (c = ' ') := by
  unfold isSpacePy
  have t1 := okChar_ne h '\t' (by decide)
  have t2 := okChar_ne h '\n' (by decide)
  have t3 := okChar_ne h '\r' (by decide)
  have t4 := okChar_ne h '\x0b' (by decide)
  have t5 := okChar_ne h '\x0c' (by decide)
  simp [t1, t2, t3, t4, t5]

theorem okChar_not_bullet {c : Char} (h : okChar c = true) :
    isBulletChar c = false := by
  unfold isBulletChar
  have t1 := okChar_ne h '•' (by decide)
  have t2 := okChar_ne h '·' (by decide)
  have t3 := okChar_ne h '▪' (by decide)
  have t4 := okChar_ne h '▫' (by decide)
  have t5 := okChar_ne h '‣' (by decide)
  have t6 := okChar_ne h '⁃' (by decide)
  simp [t1, t2, t3, t4, t5, t6]

theorem okChar_mapQuote {c : Char} (h : okChar c = true) : mapQuote c = c := by
  unfold mapQuote
  have t1 := okChar_ne h '"' (by decide)
  have t2 := okChar_ne h '\'' (by decide)
  have t3 := okChar_ne h '„' (by decide)
  have t4 := okChar_ne h '‚' (by decide)
  have t5 := okChar_ne h '«' (by decide)
  have t6 := okChar_ne h '»' (by decide)
  simp [t1, t2, t3, t4, t5, t6]

theorem char_ofNat_toNat {n : Nat} (h : n < 55296) : (Char.ofNat n).toNat = n := by
  unfold Char.ofNat
  rw [dif_pos (Or.inl h)]
  rfl

theorem toLower_okChar {c : Char} (h : okChar c = true) :
    okChar c.toLower = true ∧
      ((97 ≤ c.toLower.toNat ∧ c.toLower.toNat ≤ 122) ∨ c.toLower = ' ') := by
  unfold Char.toLower
  rcases okChar_elim h with ⟨h1, h2⟩ | ⟨h1, h2⟩ | rfl
  · rw [if_neg (by omega)]
    refine ⟨h, Or.inl ⟨h1, h2⟩⟩
  · rw [if_pos ⟨by omega, by omega⟩]
    have hv : (Char.ofNat (c.toNat + 32)).toNat = c.toNat + 32 :=
      char_ofNat_toNat (by omega)
    constructor
    · unfold okChar isAsciiAlpha
      simp only [Bool.or_eq_true, Bool.and_eq_true, decide_eq_true_eq]
      left
      left
      constructor
      · show 97 ≤ (Char.ofNat (c.toNat + 32)).toNat
        omega
      · show (Char.ofNat (c.toNat + 32)).toNat ≤ 122
        omega
    · left
      rw [hv]
      omega
  · exact ⟨h, Or.inr rfl⟩

theorem toUpper_okChar {c : Char} (h : okChar c = true) :
    okChar c.toUpper = true := by
  unfold Char.toUpper
  rcases okChar_elim h with ⟨h1, h2⟩ | ⟨h1, h2⟩ | rfl
  · rw [if_pos ⟨by omega, by omega⟩]
    have hv : (Char.ofNat (c.toNat - 32)).toNat = c.toNat - 32 :=
      char_ofNat_toNat (by omega)
    unfold okChar isAsciiAlpha
    simp only [Bool.or_eq_true, Bool.and_eq_true, decide_eq_true_eq]
    left
    right
    exact ⟨show 65 ≤ (Char.ofNat (c.toNat - 32)).toNat by omega,
      show (Char.ofNat (c.toNat - 32)).toNat ≤ 90 by omega⟩
  · rw [if_neg (by omega)]
    exact h
  · rw [if_neg (by decide)]
    exact h

theorem dropLitCI_eq_drop : ∀ (pat l : List Char) (r : List Char),
    dropLitCI pat l = some r → r = l.drop pat.length := by
  intro pat
  induction pat with
  | nil =>
    intro l r h
    injection h with h
    rw [← h]
    rfl
  | cons p ps ih =>
    intro l r h
    cases l with
    | nil => cases h
    | cons c cs =>
      unfold dropLitCI at h
      split at h
      · exact ih cs r h
      · cases h

theorem okChar_all_drop {l : List Char} (h : ∀ c ∈ l, okChar c = true) (n : Nat) :
    ∀ c ∈ l.drop n, okChar c = true :=
  fun c hc => h c (List.drop_subset n l hc)

theorem okChar_all_tail {c : Char} {cs : List Char}
    (h : ∀ x ∈ c :: cs, okChar x = true) : ∀ x ∈ cs, okChar x = true :=
  fun x hx => h x (List.mem_cons_of_mem _ hx)

theorem okChar_head {c : Char} {cs : List Char}
    (h : ∀ x ∈ c :: cs, okChar x = true) : okChar c = true :=
  h c (List.mem_cons_self _ _)

theorem takeWhile_digit_nil {l : List Char} (h : ∀ c ∈ l, okChar c = true) :
    l.takeWhile isDigitPy = [] := by
  cases l with
  | nil => rfl
  | cons c cs =>
    rw [List.takeWhile_cons, if_neg]
    rw [okChar_not_digit (okChar_head h)]
    simp

theorem a1TryPage_none {l : List Char} (h : ∀ c ∈ l, okChar c = true) :
    a1TryPage l = none := by
  unfold a1TryPage
  cases hd : dropLitCI ['p', 'a', 'g', 'e'] l with
  | none => rfl
  | some r1 =>
    have hr1 : r1 = l.drop 4 := dropLitCI_eq_drop _ _ _ hd
    have hok1 : ∀ c ∈ r1, okChar c = true := hr1 ▸ okChar_all_drop h 4
    have hok2 : ∀ c ∈ r1.drop (r1.takeWhile isSpacePy).length, okChar c = true :=
      okChar_all_drop hok1 _
    simp [takeWhile_digit_nil hok2]

theorem a1TryNum_none {l : List Char} (h : ∀ c ∈ l, okChar c = true) :
    a1TryNum l = none := by
  unfold a1TryNum
  rw [takeWhile_digit_nil h]
  rfl

theorem subA1_id {l : List Char} (h : ∀ c ∈ l, okChar c = true) :
    ∀ (fuel : Nat) (b : Bool), subA1 fuel b l = l := by
  induction l with
  | nil => intro fuel b; cases fuel <;> rfl
  | cons c cs ih =>
    intro fuel b
    cases fuel with
    | zero => rfl
    | succ fuel =>
      show (if b then _ else c :: subA1 fuel (c = '\n') cs) = c :: cs
      rw [a1TryPage_none h, a1TryNum_none h]
      have := ih (okChar_all_tail h) fuel (c = '\n')
      split <;> rw [this]

theorem subA2_id {l : List Char} (h : ∀ c ∈ l, okChar c = true) :
    ∀ (fuel : Nat) (b : Bool), subA2 fuel b l = l := by
  induction l with
  | nil => intro fuel b; cases fuel <;> rfl
  | cons c cs ih =>
    intro fuel b
    cases fuel with
    | zero => rfl
    | succ fuel =>
      have hsep : (c = '-' || c = '=' || c = '_') = false := by
        have t1 := okChar_ne (okChar_head h) '-' (by decide)
        have t2 := okChar_ne (okChar_head h) '=' (by decide)
        have t3 := okChar_ne (okChar_head h) '_' (by decide)
        simp [t1, t2, t3]
      show (if b ∧ (c = '-' || c = '=' || c = '_') = true then _
        else c :: subA2 fuel (c = '\n') cs) = c :: cs
      rw [if_neg (by simp [hsep]), ih (okChar_all_tail h) fuel (c = '\n')]

theorem subA3_id {l : List Char} (h : ∀ c ∈ l, okChar c = true) :
    ∀ fuel : Nat, subA3 fuel l = l := by
  induction l with
  | nil => intro fuel; cases fuel <;> rfl
  | cons c cs ih =>
    intro fuel
    cases fuel with
    | zero => rfl
    | succ fuel =>
      have ihcs := ih (okChar_all_tail h) fuel
      have hcond : ¬(isWordChar c = true ∧ cs.head? = some '-') := by
        rintro ⟨-, hhd⟩
        cases cs with
        | nil => cases hhd
        | cons d ds =>
          obtain rfl : d = '-' := by injection hhd
          exact okChar_ne (h '-' (List.mem_cons_of_mem _ (List.mem_cons_self _ _)))
            '-' (by decide) rfl
      show (if isWordChar c ∧ cs.head? = some '-' then _
        else c :: subA3 fuel cs) = c :: cs
      rw [if_neg hcond, ihcs]

theorem subA4_sublist : ∀ (fuel : Nat) (w : Bool) (l : List Char),
    List.Sublist (subA4 fuel w l) l := by
  intro fuel
  induction fuel with
  | zero => intro w l; exact List.Sublist.refl l
  | succ fuel ih =>
    intro w l
    cases l with
    | nil => exact List.Sublist.refl []
    | cons c cs =>
      simp only [subA4]
      split
      · exact (ih true cs).trans (List.sublist_cons_self c cs)
      · exact (ih (isWordChar c) cs).cons₂ c

theorem subA5_id {l : List Char} (h : ∀ c ∈ l, okChar c = true) :
    ∀ (fuel : Nat) (b : Bool), subA5 fuel b l = l := by
  induction l with
  | nil => intro fuel b; cases fuel <;> rfl
  | cons c cs ih =>
    intro fuel b
    cases fuel with
    | zero => rfl
    | succ fuel =>
      show (if b ∧ isBulletChar c = true then _
        else c :: subA5 fuel (c = '\n') cs) = c :: cs
      rw [if_neg (by simp [okChar_not_bullet (okChar_head h)]),
        ih (okChar_all_tail h) fuel (c = '\n')]

theorem subA6_id {l : List Char} (h : ∀ c ∈ l, okChar c = true) :
    subA6 l = l := by
  unfold subA6
  have : ∀ c ∈ l, mapQuote c = c := fun c hc => okChar_mapQuote (h c hc)
  calc l.map mapQuote = l.map id := List.map_congr_left this
    _ = l := List.map_id l

theorem subA7_id {l : List Char} (h : ∀ c ∈ l, okChar c = true) :
    ∀ fuel : Nat, subA7 fuel l = l := by
  induction l with
  | nil => intro fuel; cases fuel <;> rfl
  | cons c cs ih =>
    intro fuel
    cases fuel with
    | zero => rfl
    | succ fuel =>
      show (if c = '.' then _ else c :: subA7 fuel cs) = c :: cs
      rw [if_neg (okChar_ne (okChar_head h) '.' (by decide)),
        ih (okChar_all_tail h) fuel]

theorem subA8_id {l : List Char} (h : ∀ c ∈ l, okChar c = true) :
    ∀ fuel : Nat, subA8 fuel l = l := by
  induction l with
  | nil => intro fuel; cases fuel <;> rfl
  | cons c cs ih =>
    intro fuel
    cases fuel with
    | zero => rfl
    | succ fuel =>
      show (if c = '-' then _ else c :: subA8 fuel cs) = c :: cs
      rw [if_neg (okChar_ne (okChar_head h) '-' (by decide)),
        ih (okChar_all_tail h) fuel]

theorem subSepLine_id {l : List Char} (h : ∀ c ∈ l, okChar c = true)
    (sep : Char) (hsep : okChar sep = false) :
    ∀ (fuel : Nat) (b : Bool), subSepLine sep fuel b l = l := by
  induction l with
  | nil => intro fuel b; cases fuel <;> rfl
  | cons c cs ih =>
    intro fuel b
    cases fuel with
    | zero => rfl
    | succ fuel =>
      show (if b ∧ c = sep then _
        else c :: subSepLine sep fuel (c = '\n') cs) = c :: cs
      rw [if_neg (by simp [okChar_ne (okChar_head h) sep hsep]),
        ih (okChar_all_tail h) fuel (c = '\n')]

theorem subTabs_id {l : List Char} (h : ∀ c ∈ l, okChar c = true) :
    subTabs l = l := by
  unfold subTabs
  have : ∀ c ∈ l, (if c = '\t' then ' ' else c) = c := by
    intro c hc
    rw [if_neg (okChar_ne (h c hc) '\t' (by decide))]
  calc l.map _ = l.map id := List.map_congr_left this
    _ = l := List.map_id l

theorem subParaBreaks_id {l : List Char} (h : ∀ c ∈ l, okChar c = true) :
    ∀ fuel : Nat, subParaBreaks fuel l = l := by
  induction l with
  | nil => intro fuel; cases fuel <;> rfl
  | cons c cs ih =>
    intro fuel
    cases fuel with
    | zero => rfl
    | succ fuel =>
      show (if c = '\n' then _ else c :: subParaBreaks fuel cs) = c :: cs
      rw [if_neg (okChar_ne (okChar_head h) '\n' (by decide)),
        ih (okChar_all_tail h) fuel]

theorem subLoneNl_id {l : List Char} (h : ∀ c ∈ l, okChar c = true) :
    ∀ (fuel : Nat) (b : Bool), subLoneNl fuel b l = l := by
  induction l with
  | nil => intro fuel b; cases fuel <;> rfl
  | cons c cs ih =>
    intro fuel b
    cases fuel with
    | zero => rfl
    | succ fuel =>
      show (if c = '\n' then _ else c :: subLoneNl fuel false cs) = c :: cs
      rw [if_neg (okChar_ne (okChar_head h) '\n' (by decide)),
        ih (okChar_all_tail h) fuel false]

theorem subSpaces_sublist : ∀ (fuel : Nat) (l : List Char),
    List.Sublist (subSpaces fuel l) l := by
  intro fuel
  induction fuel with
  | zero => intro l; exact List.Sublist.refl l
  | succ fuel ih =>
    intro l
    cases l with
    | nil => exact List.Sublist.refl []
    | cons c cs =>
      simp only [subSpaces]
      split
      · next hc =>
        subst hc
        exact ((ih _).trans (List.dropWhile_sublist _)).cons₂ ' '
      · exact (ih cs).cons₂ c

/-- No two adjacent spaces. -/
def hasDoubleSpace : List Char → Bool
  | c1 :: c2 :: cs => (c1 = ' ' && c2 = ' ') || hasDoubleSpace (c2 :: cs)
  | _ => false

theorem subSpaces_id {l : List Char} :
    ∀ fuel : Nat, hasDoubleSpace l = false → subSpaces fuel l = l := by
  induction l with
  | nil => intro fuel _; cases fuel <;> rfl
  | cons c cs ih =>
    intro fuel hds
    cases fuel with
    | zero => rfl
    | succ fuel =>
      have htail : hasDoubleSpace cs = false := by
        cases cs with
        | nil => rfl
        | cons c2 cs2 =>
          unfold hasDoubleSpace at hds
          exact (Bool.or_eq_false_iff.mp hds).2
      show (if c = ' ' then ' ' :: subSpaces fuel (cs.dropWhile (· = ' '))
        else c :: subSpaces fuel cs) = c :: cs
      split
      · next hc =>
        subst hc
        have hcs : cs.dropWhile (· = ' ') = cs := by
          cases cs with
          | nil => rfl
          | cons c2 cs2 =>
            unfold hasDoubleSpace at hds
            have h2 : (c2 = ' ' : Bool) = false := by
              rcases Bool.or_eq_false_iff.mp hds with ⟨h1, _⟩
              simpa using Bool.and_eq_false_iff.mp h1
            rw [List.dropWhile_cons, if_neg (by simp_all)]
        rw [hcs, ih fuel htail]
      · rw [ih fuel htail]

theorem replaceLit_id {p : Char} {ps repl l : List Char}
    (h : ∀ c ∈ l, c ≠ p) :
    ∀ fuel : Nat, replaceLit (p :: ps) repl fuel l = l := by
  induction l with
  | nil => intro fuel; cases fuel <;> rfl
  | cons c cs ih =>
    intro fuel
    cases fuel with
    | zero => rfl
    | succ fuel =>
      have hdrop : dropLit (p :: ps) (c :: cs) = none := by
        unfold dropLit
        rw [if_neg (h c (List.mem_cons_self _ _))]
      show (match dropLit (p :: ps) (c :: cs) with
        | some rest => repl ++ replaceLit (p :: ps) repl fuel rest
        | none => c :: replaceLit (p :: ps) repl fuel cs) = c :: cs
      rw [hdrop, ih (fun x hx => h x (List.mem_cons_of_mem _ hx)) fuel]

theorem fixEncodingIssues_id {l : List Char} (h : ∀ c ∈ l, okChar c = true) :
    fixEncodingIssues l = l := by
  have hne1 : ∀ c ∈ l, c ≠ 'â' := fun c hc =>
    okChar_ne (h c hc) 'â' (by decide)
  have hne2 : ∀ c ∈ l, c ≠ 'Â' := fun c hc =>
    okChar_ne (h c hc) 'Â' (by decide)
  show List.foldl _ l encodingFixes = l
  unfold encodingFixes
  simp only [List.foldl_cons, List.foldl_nil]
  rw [replaceLit_id hne1, replaceLit_id hne1, replaceLit_id hne1,
    replaceLit_id hne1, replaceLit_id hne1, replaceLit_id hne2,
    replaceLit_id hne1, replaceLit_id hne2]

/-- The trigger condition of the standalone-consonant pass, as a scan. -/
def hasLoneCons : Bool → List Char → Bool
  | _, [] => false
  | prevW, c :: cs =>
    (isConsonant c && !prevW && (cs.isEmpty || !isWordChar (cs.headD ' '))) ||
      hasLoneCons (isWordChar c) cs

theorem subA4_id {l : List Char} :
    ∀ (fuel : Nat) (w : Bool), hasLoneCons w l = false → subA4 fuel w l = l := by
  induction l with
  | nil => intro fuel w _; cases fuel <;> rfl
  | cons c cs ih =>
    intro fuel w hlc
    cases fuel with
    | zero => rfl
    | succ fuel =>
      unfold hasLoneCons at hlc
      rcases Bool.or_eq_false_iff.mp hlc with ⟨h1, h2⟩
      have hcond : ¬(isConsonant c = true ∧ ¬w = true ∧
          (cs.isEmpty = true ∨ ¬isWordChar (cs.headD ' ') = true)) := by
        intro ⟨hc, hw, hd⟩
        rw [Bool.not_eq_true] at hw
        subst hw
        rw [hc] at h1
        simp only [Bool.not_false, Bool.and_true, Bool.true_and] at h1
        rcases Bool.or_eq_false_iff.mp h1 with ⟨ha, hb⟩
        rcases hd with hd | hd
        · rw [hd] at ha; exact Bool.noConfusion ha
        · rw [Bool.not_eq_true] at hd
          rw [hd] at hb
          exact Bool.noConfusion hb
      show (if isConsonant c = true ∧ ¬w = true ∧
          (cs.isEmpty = true ∨ ¬isWordChar (cs.headD ' ') = true) then
          subA4 fuel true cs
        else c :: subA4 fuel (isWordChar c) cs) = c :: cs
      rw [if_neg hcond, ih fuel (isWordChar c) h2]

/-- Does any of the keywords match (case-insensitively) at the head? -/
def startsWithAny (kws : List (List Char)) (l : List Char) : Bool :=
  kws.any (fun kw => (dropLitCI kw l).isSome)

theorem findSome?_section_none {kws : List (List Char)} {l : List Char}
    (h : startsWithAny kws l = false) :
    kws.findSome? (fun kw => (dropLitCI kw l).map (kw.length, ·)) = none := by
  induction kws with
  | nil => rfl
  | cons kw kws ih =>
    unfold startsWithAny at h
    rw [List.any_cons, Bool.or_eq_false_iff] at h
    rw [List.findSome?_cons]
    have hnone : dropLitCI kw l = none := by
      cases hd : dropLitCI kw l with
      | none => rfl
      | some r => rw [hd] at h; simp at h
    rw [hnone]
    exact ih h.2

theorem subSection_id_tail {kws : List (List Char)} {l : List Char}
    (h : ∀ c ∈ l, c ≠ '\n') : ∀ fuel : Nat, subSection kws fuel false l = l := by
  induction l with
  | nil => intro fuel; cases fuel <;> rfl
  | cons c cs ih =>
    intro fuel
    cases fuel with
    | zero => rfl
    | succ fuel =>
      show c :: subSection kws fuel (c = '\n') cs = c :: cs
      have : (c = '\n' : Bool) = false := by
        simp [h c (List.mem_cons_self _ _)]
      rw [this, ih (fun x hx => h x (List.mem_cons_of_mem _ hx)) fuel]

theorem subSection_id {kws : List (List Char)} {l : List Char}
    (hnl : ∀ c ∈ l, c ≠ '\n') (hsw : startsWithAny kws l = false) :
    ∀ fuel : Nat, subSection kws fuel true l = l := by
  intro fuel
  cases l with
  | nil => cases fuel <;> rfl
  | cons c cs =>
    cases fuel with
    | zero => rfl
    | succ fuel =>
      show (match kws.findSome? (fun kw =>
          (dropLitCI kw (c :: cs)).map (kw.length, ·)) with
        | some (n, rest) => titleWord ((c :: cs).take n) ++
            subSection kws fuel false rest
        | none => c :: subSection kws fuel (c = '\n') cs) = c :: cs
      rw [findSome?_section_none hsw]
      have : (c = '\n' : Bool) = false := by
        simp [hnl c (List.mem_cons_self _ _)]
      rw [this, subSection_id_tail (fun x hx => hnl x (List.mem_cons_of_mem _ hx)) fuel]

theorem subUnit_id {alts : List (List Char × List Char)} {unit : List Char}
    {l : List Char} (h : ∀ c ∈ l, okChar c = true) :
    ∀ fuel : Nat, subUnit alts unit fuel l = l := by
  induction l with
  | nil => intro fuel; cases fuel <;> rfl
  | cons c cs ih =>
    intro fuel
    cases fuel with
    | zero => rfl
    | succ fuel =>
      show (if isDigitPy c = true then _
        else c :: subUnit alts unit fuel cs) = c :: cs
      rw [if_neg (by simp [okChar_not_digit (okChar_head h)]),
        ih (okChar_all_tail h) fuel]

theorem subDegrees_id {x : Char} {tail : List Char} {up : Char}
    {l : List Char} (h : ∀ c ∈ l, okChar c = true) :
    ∀ fuel : Nat, subDegrees x tail up fuel l = l := by
  induction l with
  | nil => intro fuel; cases fuel <;> rfl
  | cons c cs ih =>
    intro fuel
    cases fuel with
    | zero => rfl
    | succ fuel =>
      show (if isDigitPy c = true then _
        else c :: subDegrees x tail up fuel cs) = c :: cs
      rw [if_neg (by simp [okChar_not_digit (okChar_head h)]),
        ih (okChar_all_tail h) fuel]

theorem dropWhile_space_id {l : List Char} (hok : ∀ c ∈ l, okChar c = true)
    (hh : l.head? ≠ some ' ') : l.dropWhile isSpacePy = l := by
  cases l with
  | nil => rfl
  | cons c cs =>
    rw [List.dropWhile_cons, if_neg]
    intro hsp
    rw [okChar_isSpacePy (okChar_head hok), decide_eq_true_eq] at hsp
    exact hh (by rw [hsp]; rfl)

theorem stripL_id {l : List Char} (hok : ∀ c ∈ l, okChar c = true)
    (hh : l.head? ≠ some ' ') (hl : l.getLast? ≠ some ' ') : stripL l = l := by
  unfold stripL
  rw [dropWhile_space_id hok hh]
  rw [dropWhile_space_id (fun c hc => hok c (List.mem_reverse.mp hc))
    (by rw [List.head?_reverse]; exact hl)]
  exact List.reverse_reverse l

theorem dropLitCI_length_le : ∀ {pat l r : List Char},
    dropLitCI pat l = some r → pat.length ≤ l.length := by
  intro pat
  induction pat with
  | nil => intro l r _; exact Nat.zero_le _
  | cons p ps ih =>
    intro l r h
    cases l with
    | nil => cases h
    | cons c cs =>
      unfold dropLitCI at h
      by_cases hc : c.toLower = p.toLower
      · rw [if_pos hc] at h
        exact Nat.succ_le_succ (ih h)
      · rw [if_neg hc] at h; cases h

theorem findSome?_section_some {kws : List (List Char)} {l : List Char}
    {res : Nat × List Char}
    (h : kws.findSome? (fun kw => (dropLitCI kw l).map (kw.length, ·)) = some res) :
    res.2 = l.drop res.1 ∧ res.1 ≤ l.length := by
  obtain ⟨kw, _, hkw⟩ := List.exists_of_findSome?_eq_some h
  cases hd : dropLitCI kw l with
  | none => rw [hd] at hkw; cases hkw
  | some r =>
    rw [hd] at hkw
    simp only [Option.map_some'] at hkw
    obtain rfl := Option.some.inj hkw
    exact ⟨dropLitCI_eq_drop kw l r hd, dropLitCI_length_le hd⟩

theorem titleWord_length (l : List Char) : (titleWord l).length = l.length := by
  cases l <;> simp [titleWord]

theorem titleWord_okChar {l : List Char} (h : ∀ c ∈ l, okChar c = true) :
    ∀ c ∈ titleWord l, okChar c = true := by
  cases l with
  | nil => intro c hc; cases hc
  | cons x xs =>
    intro c hc
    rcases List.mem_cons.mp hc with rfl | hc
    · exact toUpper_okChar (okChar_head h)
    · obtain ⟨y, hy, rfl⟩ := List.mem_map.mp hc
      exact (toLower_okChar (okChar_all_tail h y hy)).1

theorem subSection_length {kws : List (List Char)} :
    ∀ (fuel : Nat) (b : Bool) (l : List Char),
      (subSection kws fuel b l).length = l.length := by
  intro fuel
  induction fuel with
  | zero => intro b l; rfl
  | succ fuel ih =>
    intro b l
    cases l with
    | nil => rfl
    | cons c cs =>
      cases b with
      | false =>
        show (c :: subSection kws fuel (c = '\n') cs).length = (c :: cs).length
        simp [ih]
      | true =>
        show (match kws.findSome?
            (fun kw => (dropLitCI kw (c :: cs)).map (kw.length, ·)) with
          | some (n, rest) => titleWord ((c :: cs).take n) ++
              subSection kws fuel false rest
          | none => c :: subSection kws fuel (c = '\n') cs).length =
            (c :: cs).length
        cases hfs : kws.findSome?
            (fun kw => (dropLitCI kw (c :: cs)).map (kw.length, ·)) with
        | none => simp [ih]
        | some res =>
          obtain ⟨n, rest⟩ := res
          obtain ⟨hdrop, hle⟩ := findSome?_section_some hfs
          simp only at hdrop hle
          subst hdrop
          simp only [List.length_append, titleWord_length, List.length_take,
            ih, List.length_drop, List.length_cons]
          simp only [List.length_cons] at hle
          omega

theorem subSection_okChar {kws : List (List Char)} :
    ∀ (fuel : Nat) (b : Bool) (l : List Char), (∀ c ∈ l, okChar c = true) →
      ∀ c ∈ subSection kws fuel b l, okChar c = true := by
  intro fuel
  induction fuel with
  | zero => intro b l h; exact h
  | succ fuel ih =>
    intro b l h
    cases l with
    | nil => intro c hc; cases hc
    | cons c cs =>
      cases b with
      | false =>
        show ∀ x ∈ c :: subSection kws fuel (c = '\n') cs, okChar x = true
        intro x hx
        rcases List.mem_cons.mp hx with rfl | hx
        · exact okChar_head h
        · exact ih (c = '\n') cs (okChar_all_tail h) x hx
      | true =>
        show ∀ x ∈ (match kws.findSome?
            (fun kw => (dropLitCI kw (c :: cs)).map (kw.length, ·)) with
          | some (n, rest) => titleWord ((c :: cs).take n) ++
              subSection kws fuel false rest
          | none => c :: subSection kws fuel (c = '\n') cs), okChar x = true
        cases hfs : kws.findSome?
            (fun kw => (dropLitCI kw (c :: cs)).map (kw.length, ·)) with
        | none =>
          intro x hx
          rcases List.mem_cons.mp hx with rfl | hx
          · exact okChar_head h
          · exact ih (c = '\n') cs (okChar_all_tail h) x hx
        | some res =>
          obtain ⟨n, rest⟩ := res
          obtain ⟨hdrop, _⟩ := findSome?_section_some hfs
          simp only at hdrop
          subst hdrop
          intro x hx
          rcases List.mem_append.mp hx with hx | hx
          · exact titleWord_okChar
              (fun y hy => h y (List.take_subset n _ hy)) x hx
          · exact ih false _ (okChar_all_drop h n) x hx

theorem sectionsFold_length_okChar :
    ∀ (pats : List (List (List Char))) (l : List Char),
      (∀ c ∈ l, okChar c = true) →
      (pats.foldl (fun t kws => subSection kws t.length true t) l).length =
          l.length ∧
      ∀ c ∈ pats.foldl (fun t kws => subSection kws t.length true t) l,
        okChar c = true := by
  intro pats
  induction pats with
  | nil => intro l h; exact ⟨rfl, h⟩
  | cons kws pats ih =>
    intro l h
    rw [List.foldl_cons]
    obtain ⟨h1, h2⟩ := ih (subSection kws l.length true l)
      (subSection_okChar l.length true l h)
    exact ⟨h1.trans (subSection_length l.length true l), h2⟩

theorem sectionsFold_id :
    ∀ (pats : List (List (List Char))) (l : List Char), (∀ c ∈ l, c ≠ '\n') →
      (∀ kws ∈ pats, startsWithAny kws l = false) →
      pats.foldl (fun t kws => subSection kws t.length true t) l = l := by
  intro pats
  induction pats with
  | nil => intro l _ _; rfl
  | cons kws pats ih =>
    intro l hnl hsw
    rw [List.foldl_cons, subSection_id hnl (hsw kws (List.mem_cons_self _ _))]
    exact ih l hnl (fun k hk => hsw k (List.mem_cons_of_mem _ hk))

theorem standardizeFormatting_length {l : List Char}
    (h : ∀ c ∈ l, okChar c = true) :
    (standardizeFormatting l).length = l.length := by
  simp only [ standardizeFormatting]
  obtain ⟨h1, h2⟩ := sectionsFold_length_okChar sectionPatterns l h
  rw [subUnit_id h2, subUnit_id h2, subUnit_id h2, subDegrees_id h2,
    subDegrees_id h2]
  exact h1

theorem standardizeFormatting_id {l : List Char}
    (hok : ∀ c ∈ l, okChar c = true)
    (hsw : ∀ kws ∈ sectionPatterns, startsWithAny kws l = false) :
    standardizeFormatting l = l := by
  simp only [ standardizeFormatting]
  have hnl : ∀ c ∈ l, c ≠ '\n' := fun c hc =>
    okChar_ne (hok c hc) '\n' (by decide)
  rw [sectionsFold_id sectionPatterns l hnl hsw, subUnit_id hok,
    subUnit_id hok, subUnit_id hok, subDegrees_id hok, subDegrees_id hok]

theorem removeArtifacts_plain {l : List Char} (h : ∀ c ∈ l, okChar c = true) :
    removeArtifacts l = subA4 l.length false l := by
  simp only [ removeArtifacts]
  rw [subA1_id h, subA2_id h, subA3_id h]
  have h4 : ∀ c ∈ subA4 l.length false l, okChar c = true :=
    fun c hc => h c ((subA4_sublist l.length false l).subset hc)
  rw [subA5_id h4, subA6_id h4, subA7_id h4, subA8_id h4,
    subSepLine_id h4 '=' (by decide), subSepLine_id h4 '-' (by decide)]

theorem normalizeWhitespace_plain {l : List Char}
    (h : ∀ c ∈ l, okChar c = true) :
    normalizeWhitespace l = subSpaces l.length l := by
  simp only [ normalizeWhitespace]
  rw [subTabs_id h, subParaBreaks_id h, subLoneNl_id h]

/-- The "plain prose" class: ASCII letters and single spaces, no edge
spaces, no standalone consonant, and no section keyword at the start. -/
def plainProse (t : String) : Bool :=
  t.data.all okChar &&
  !hasDoubleSpace t.data &&
  !hasLoneCons false t.data &&
  !(t.data.head? = some ' ') &&
  !(t.data.getLast? = some ' ') &&
  !(sectionPatterns.any (fun kws => startsWithAny kws t.data))

theorem cleanText_id_of_plain {t : String} (h : plainProse t = true) :
    cleanText t = t := by
  unfold plainProse at h
  simp only [Bool.and_eq_true, Bool.not_eq_true', List.all_eq_true,
    decide_eq_false_iff_not, List.any_eq_false] at h
  obtain ⟨⟨⟨⟨⟨hok, hds⟩, hlc⟩, hh⟩, hl⟩, hsw⟩ := h
  by_cases ht : t = ""
  · subst ht; rfl
  · unfold cleanText
    rw [if_neg ht]
    rw [removeArtifacts_plain hok, subA4_id t.data.length false hlc,
      normalizeWhitespace_plain hok, subSpaces_id t.data.length hds,
      fixEncodingIssues_id hok,
      standardizeFormatting_id hok (fun k hk => Bool.eq_false_iff.mpr (hsw k hk)),
      stripL_id hok hh hl]

/-- **C2** (amended): `clean_text` is idempotent on plain prose — strings of
ASCII letters and single interior spaces with no standalone consonant and no
section keyword at the start. (Unrestricted idempotence is false: see the
hyphenation counterexample.) -/
theorem clean_text_idempotent_on_plain (t : String)
    (h : plainProse t = true) :
    cleanText (cleanText t) = cleanText t := by
  rw [cleanText_id_of_plain h]
  exact cleanText_id_of_plain h

theorem clean_text_idempotent_on_plain_witness :
    plainProse "hello world" = true ∧
      cleanText (cleanText "hello world") = cleanText "hello world" :=
  ⟨by decide, clean_text_idempotent_on_plain "hello world" (by decide)⟩

/-- **C5** (amended): on strings of ASCII letters and spaces, `clean_text`
never lengthens the text. (The unrestricted claim is false: the unit rule
rewrites `5in` to `5 inches`.) -/
theorem clean_text_length_le_on_alpha_space (t : String)
    (hok : ∀ c ∈ t.data, okChar c = true) :
    (cleanText t).length ≤ t.length := by
  by_cases ht : t = ""
  · subst ht; exact Nat.le_refl 0
  · unfold cleanText
    rw [if_neg ht]
    show (stripL (standardizeFormatting (fixEncodingIssues
      (normalizeWhitespace (removeArtifacts t.data))))).length ≤ t.data.length
    have h4 : ∀ c ∈ subA4 t.data.length false t.data, okChar c = true :=
      fun c hc => hok c ((subA4_sublist t.data.length false t.data).subset hc)
    rw [removeArtifacts_plain hok, normalizeWhitespace_plain h4]
    have hw : ∀ c ∈ subSpaces (subA4 t.data.length false t.data).length
        (subA4 t.data.length false t.data), okChar c = true :=
      fun c hc => h4 c ((subSpaces_sublist _ _).subset hc)
    rw [fixEncodingIssues_id hw]
    calc (stripL (standardizeFormatting (subSpaces
            (subA4 t.data.length false t.data).length
            (subA4 t.data.length false t.data)))).length
        ≤ (standardizeFormatting (subSpaces
            (subA4 t.data.length false t.data).length
            (subA4 t.data.length false t.data))).length := stripL_length_le _
      _ = (subSpaces (subA4 t.data.length false t.data).length
            (subA4 t.data.length false t.data)).length :=
          standardizeFormatting_length hw
      _ ≤ (subA4 t.data.length false t.data).length :=
          (subSpaces_sublist _ _).length_le
      _ ≤ t.data.length := (subA4_sublist _ _ _).length_le

theorem clean_text_length_le_on_alpha_space_witness :
    (∀ c ∈ ("wash the drum" : String).data, okChar c = true) ∧
      (cleanText "wash the drum").length ≤ ("wash the drum" : String).length :=
  ⟨by decide, clean_text_length_le_on_alpha_space "wash the drum" (by decide)⟩

/-! ### `_calculate_text_similarity` on identical inputs

For a window below the autojunk threshold the b-side index is the full
occurrence index, and on identical strings the dynamic-programming loop
returns the whole diagonal. -/

theorem flmInner_fst (prev : Nat → Nat) (i : Nat)
    (st : (Nat → Nat) × (Nat × Nat × Nat)) (j : Nat) :
    (flmInner prev i st j).1 =
      fun x => if x = j then (if j = 0 then 0 else prev (j - 1)) + 1
        else st.1 x := by
  by_cases hc : st.2.2.2 < (if j = 0 then 0 else prev (j - 1)) + 1
  · simp only [flmInner]
    rw [if_pos hc]
  · simp only [flmInner]
    rw [if_neg hc]

theorem flm_fold_best (prev : Nat → Nat) (i b1 b2 bs : Nat) :
    ∀ (js : List Nat) (g : Nat → Nat),
      (∀ j ∈ js, (if j = 0 then 0 else prev (j - 1)) + 1 ≤ bs) →
      (js.foldl (flmInner prev i) (g, (b1, b2, bs))).2 = (b1, b2, bs) ∧
      ∀ x, x ∉ js →
        (js.foldl (flmInner prev i) (g, (b1, b2, bs))).1 x = g x := by
  intro js
  induction js with
  | nil => intro g _; exact ⟨rfl, fun x _ => rfl⟩
  | cons j js ih =>
    intro g hk
    have hkj := hk j (List.mem_cons_self _ _)
    have hstep : flmInner prev i (g, (b1, b2, bs)) j =
        (fun x => if x = j then (if j = 0 then 0 else prev (j - 1)) + 1
          else g x, (b1, b2, bs)) := by
      simp only [flmInner]
      rw [if_neg (Nat.not_lt.mpr hkj)]
    rw [List.foldl_cons, hstep]
    obtain ⟨h1, h2⟩ := ih _ (fun x hx => hk x (List.mem_cons_of_mem _ hx))
    refine ⟨h1, fun x hx => ?_⟩
    rw [h2 x (fun hh => hx (List.mem_cons_of_mem _ hh))]
    exact if_neg (fun hh => hx (by rw [hh]; exact List.mem_cons_self _ _))

theorem flm_fold_map_le (prev : Nat → Nat) (i : Nat)
    (hprev : ∀ x, prev x ≤ min i (x + 1)) :
    ∀ (js : List Nat) (st : (Nat → Nat) × (Nat × Nat × Nat)),
      (∀ x, st.1 x ≤ min (i + 1) (x + 1)) →
      ∀ x, (js.foldl (flmInner prev i) st).1 x ≤ min (i + 1) (x + 1) := by
  intro js
  induction js with
  | nil => intro st h x; exact h x
  | cons j js ih =>
    intro st h x
    rw [List.foldl_cons]
    apply ih
    intro y
    simp only [flmInner_fst]
    by_cases hyj : y = j
    · subst hyj
      rw [if_pos rfl]
      by_cases hj0 : y = 0
      · subst hj0
        simp
      · rw [if_neg hj0]
        have := hprev (y - 1)
        omega
    · rw [if_neg hyj]
      exact h y

theorem b2j_self_split {s : List Char} (hn : s.length < 200) {i : Nat}
    (hi : i < s.length) :
    ∃ A B, (b2jOf s (s.getD i ' ')).filter
        (fun j => decide (0 ≤ j) && decide (j < s.length)) = A ++ i :: B ∧
      (∀ j ∈ A, j < i) ∧ (∀ j ∈ B, i < j) := by
  have hpop : isPopular s (s.getD i ' ') = false := by
    unfold isPopular
    have : (decide (200 ≤ s.length)) = false := by
      simp only [decide_eq_false_iff_not]
      omega
    rw [this, Bool.false_and]
  have hb2j : b2jOf s (s.getD i ' ') = occIdx s (s.getD i ' ') := by
    unfold b2jOf
    rw [if_neg (by rw [hpop]; exact Bool.noConfusion)]
  rw [hb2j]
  have hfil : (occIdx s (s.getD i ' ')).filter
      (fun j => decide (0 ≤ j) && decide (j < s.length)) =
      occIdx s (s.getD i ' ') := by
    apply List.filter_eq_self.mpr
    intro j hj
    have hjr : j ∈ List.range s.length := (List.mem_filter.mp hj).1
    have hjlt : j < s.length := List.mem_range.mp hjr
    simp [hjlt]
  rw [hfil]
  unfold occIdx
  have hsplitr : List.range s.length =
      List.range' 0 i ++ i :: List.range' (i + 1) (s.length - i - 1) := by
    rw [List.range_eq_range']
    have happ := List.range'_append 0 i (s.length - i) 1
    simp only [Nat.zero_add, Nat.one_mul] at happ
    have hlen : s.length - i + i = s.length := by omega
    rw [hlen] at happ
    rw [← happ]
    congr 1
    have h2 : s.length - i = (s.length - i - 1) + 1 := by omega
    rw [h2, List.range'_succ]
    have h3 : s.length - i - 1 + 1 - 1 = s.length - i - 1 := by omega
    rw [h3]
  rw [hsplitr, List.filter_append,
    List.filter_cons_of_pos (by simp)]
  refine ⟨_, _, rfl, fun j hj => ?_, fun j hj => ?_⟩
  · have := List.mem_range'_1.mp (List.mem_of_mem_filter hj)
    omega
  · have := List.mem_range'_1.mp (List.mem_of_mem_filter hj)
    omega

/-- The row function of the main loop of `find_longest_match`, specialised
to the full window `alo = blo = 0`, `ahi = bhi = len(b)`. -/
def flmRow (s : List Char) (b2j : Char → List Nat)
    (st : (Nat → Nat) × (Nat × Nat × Nat)) (i : Nat) :
    (Nat → Nat) × (Nat × Nat × Nat) :=
  ((b2j (s.getD i ' ')).filter
      (fun j => decide (0 ≤ j) && decide (j < s.length))).foldl
    (flmInner st.1 i) ((fun _ => 0), st.2)

theorem flmInner_mk (prev : Nat → Nat) (i : Nat) (g : Nat → Nat)
    (b : Nat × Nat × Nat) (j : Nat) :
    flmInner prev i (g, b) j =
      (fun x => if x = j then (if j = 0 then 0 else prev (j - 1)) + 1
        else g x,
       if b.2.2 < (if j = 0 then 0 else prev (j - 1)) + 1 then
         (i + 1 - ((if j = 0 then 0 else prev (j - 1)) + 1),
          j + 1 - ((if j = 0 then 0 else prev (j - 1)) + 1),
          (if j = 0 then 0 else prev (j - 1)) + 1)
       else b) := by
  by_cases hc : b.2.2 < (if j = 0 then 0 else prev (j - 1)) + 1
  · simp only [flmInner]
    rw [if_pos hc, if_pos hc]
  · simp only [flmInner]
    rw [if_neg hc, if_neg hc]

theorem flmRow_mk (s : List Char) (b2j : Char → List Nat) (g : Nat → Nat)
    (b : Nat × Nat × Nat) (i : Nat) :
    flmRow s b2j (g, b) i =
      ((b2j (s.getD i ' ')).filter
          (fun j => decide (0 ≤ j) && decide (j < s.length))).foldl
        (flmInner g i) ((fun _ => 0), b) := rfl

theorem flm_outer_self {s : List Char} (hn : s.length < 200) :
    ∀ i, i ≤ s.length →
      ((List.range' 0 i).foldl (flmRow s (b2jOf s))
          ((fun _ => 0), (0, 0, 0))).2 = (0, 0, i) ∧
      (∀ x, ((List.range' 0 i).foldl (flmRow s (b2jOf s))
          ((fun _ => 0), (0, 0, 0))).1 x ≤ min i (x + 1)) ∧
      (1 ≤ i → ((List.range' 0 i).foldl (flmRow s (b2jOf s))
          ((fun _ => 0), (0, 0, 0))).1 (i - 1) = i) := by
  intro i
  induction i with
  | zero =>
    intro _
    refine ⟨rfl, fun x => by simp, fun h => absurd h (by omega)⟩
  | succ i ih =>
    intro hi
    obtain ⟨hbest, hmap, hdiag⟩ := ih (by omega)
    have hconcat : List.range' 0 (i + 1) = List.range' 0 i ++ [i] := by
      rw [List.range'_concat]
      simp
    rw [hconcat, List.foldl_append, List.foldl_cons, List.foldl_nil]
    set P := (List.range' 0 i).foldl (flmRow s (b2jOf s))
      ((fun _ => 0), (0, 0, 0)) with hP
    obtain ⟨A, B, hsplit, hA, hB⟩ := b2j_self_split hn
      (show i < s.length by omega)
    have hPeta : P = (P.1, (0, 0, i)) := by rw [← hbest]
    rw [hPeta, flmRow_mk, hsplit]
    rw [List.foldl_append, List.foldl_cons]
    have hkA : ∀ j ∈ A, (if j = 0 then 0 else P.1 (j - 1)) + 1 ≤ i := by
      intro j hj
      have hji := hA j hj
      by_cases hj0 : j = 0
      · rw [if_pos hj0]
        omega
      · rw [if_neg hj0]
        have hb := hmap (j - 1)
        omega
    obtain ⟨hA2, hA1⟩ := flm_fold_best P.1 i 0 0 i A (fun _ => 0) hkA
    have hQA : A.foldl (flmInner P.1 i) ((fun _ => 0), (0, 0, i)) =
        ((A.foldl (flmInner P.1 i) ((fun _ => 0), (0, 0, i))).1, (0, 0, i)) :=
      Prod.ext rfl hA2
    have hk : (if i = 0 then 0 else P.1 (i - 1)) + 1 = i + 1 := by
      by_cases h0 : i = 0
      · rw [if_pos h0, h0]
      · rw [if_neg h0]
        have hd := hdiag (by omega)
        omega
    rw [hQA, flmInner_mk, hk]
    have hcond : ((0, 0, i) : Nat × Nat × Nat).2.2 < i + 1 := by
      show i < i + 1
      omega
    rw [if_pos hcond]
    have hzero : i + 1 - (i + 1) = 0 := by omega
    rw [hzero]
    have hkB : ∀ j ∈ B,
        (if j = 0 then 0 else P.1 (j - 1)) + 1 ≤ i + 1 := by
      intro j hj
      have hji := hB j hj
      by_cases hj0 : j = 0
      · rw [if_pos hj0]
        omega
      · rw [if_neg hj0]
        have hb := hmap (j - 1)
        have hj1 : j - 1 + 1 = j := by omega
        omega
    obtain ⟨hB2, hB1⟩ := flm_fold_best P.1 i 0 0 (i + 1) B
      (fun x => if x = i then i + 1 else
        (A.foldl (flmInner P.1 i) ((fun _ => 0), (0, 0, i))).1 x) hkB
    refine ⟨hB2, ?_, ?_⟩
    · intro x
      have hprev : ∀ y, P.1 y ≤ min i (y + 1) := hmap
      have hmapA : ∀ y, ((fun _ => 0 : Nat → Nat),
          ((0 : Nat), (0 : Nat), i)).1 y ≤ min (i + 1) (y + 1) := by
        intro y
        simp
      have h1 := flm_fold_map_le P.1 i hprev A _ hmapA
      have h2 : ∀ y, ((fun x => if x = i then i + 1 else
          (A.foldl (flmInner P.1 i) ((fun _ => 0), (0, 0, i))).1 x : Nat → Nat),
          ((0 : Nat), (0 : Nat), i + 1)).1 y ≤ min (i + 1) (y + 1) := by
        intro y
        by_cases hyi : y = i
        · subst hyi
          show (if y = y then y + 1 else _) ≤ _
          rw [if_pos rfl]
          simp
        · show (if y = i then i + 1 else _) ≤ _
          rw [if_neg hyi]
          exact h1 y
      exact flm_fold_map_le P.1 i hprev B _ h2 x
    · intro _
      have hiB : i ∉ B := fun hmem => absurd (hB i hmem) (by omega)
      have hval := hB1 i hiB
      rw [Nat.add_sub_cancel, hval]
      show (if i = i then i + 1 else _) = i + 1
      rw [if_pos rfl]

theorem flmMain_self {s : List Char} (hn : s.length < 200) :
    flmMain s (b2jOf s) 0 s.length 0 s.length = (0, 0, s.length) := by
  have h := (flm_outer_self hn s.length (Nat.le_refl _)).1
  show ((List.range' 0 (s.length - 0)).foldl (flmRow s (b2jOf s))
    ((fun _ => 0), (0, 0, 0))).2 = (0, 0, s.length)
  rw [Nat.sub_zero]
  exact h

theorem findLongestMatch_self {s : List Char} (hn : s.length < 200) :
    findLongestMatch s s (b2jOf s) 0 s.length 0 s.length =
      (0, 0, s.length) := by
  simp only [findLongestMatch]
  rw [flmMain_self hn]
  have hL : extendLeft s s 0 0
      (((0, 0, s.length) : Nat × Nat × Nat)).1 (0, 0, s.length) =
      (0, 0, s.length) := rfl
  rw [hL]
  have hfuel : s.length - ((((0, 0, s.length) : Nat × Nat × Nat)).1 +
      (((0, 0, s.length) : Nat × Nat × Nat)).2.2) = 0 := by
    show s.length - (0 + s.length) = 0
    omega
  rw [hfuel]
  rfl

theorem matchTotal_self {s : List Char} (hs : s ≠ []) (hn : s.length < 200) :
    ∀ fuel, 1 ≤ fuel →
      matchTotal s s (b2jOf s) fuel (0, s.length, 0, s.length) =
        s.length := by
  intro fuel hf
  cases fuel with
  | zero => omega
  | succ fuel =>
    have hpos : 0 < s.length := List.length_pos.mpr hs
    simp only [matchTotal]
    rw [findLongestMatch_self hn]
    have h1 : ¬ ((((0, 0, s.length) : Nat × Nat × Nat)).2.2 = 0) := by
      show ¬ (s.length = 0)
      omega
    rw [if_neg h1]
    have h2 : ¬ ((0 : Nat) < (((0, 0, s.length) : Nat × Nat × Nat)).1 ∧
        (0 : Nat) < (((0, 0, s.length) : Nat × Nat × Nat)).2.1) := by
      show ¬ ((0 : Nat) < 0 ∧ (0 : Nat) < 0)
      omega
    rw [if_neg h2]
    have h3 : ¬ ((((0, 0, s.length) : Nat × Nat × Nat)).1 +
        (((0, 0, s.length) : Nat × Nat × Nat)).2.2 < s.length ∧
        (((0, 0, s.length) : Nat × Nat × Nat)).2.1 +
        (((0, 0, s.length) : Nat × Nat × Nat)).2.2 < s.length) := by
      show ¬ (0 + s.length < s.length ∧ 0 + s.length < s.length)
      omega
    rw [if_neg h3]
    show s.length + 0 + 0 = s.length
    omega

theorem seqRatioQ_self {s : List Char} (hn : s.length < 200) :
    seqRatioQ s s = 1 := by
  by_cases hs : s = []
  · subst hs
    rfl
  · have hpos : 0 < s.length := List.length_pos.mpr hs
    simp only [seqRatioQ]
    rw [matchTotal_self hs hn (s.length + s.length + 1) (by omega)]
    rw [if_neg (by omega : ¬ (s.length + s.length = 0))]
    have hne : ((s.length : ℚ) + (s.length : ℚ)) ≠ 0 := by
      have : (0 : ℚ) < (s.length : ℚ) := by
        exact_mod_cast hpos
      linarith
    rw [div_eq_one_iff_eq hne]
    ring

/-- **C4** (amended): `_calculate_text_similarity(a, a) = 1.0` for every
non-empty `a` whose lowered-and-stripped form is below the autojunk
threshold of 200 characters, and `_calculate_text_similarity` returns `0.0`
whenever either argument is empty. (Unrestricted symmetry is false: see the
similarity counterexample.) -/
theorem similarity_identity_amended :
    (∀ a : String, a ≠ "" → (stripL (lowerL a.data)).length < 200 →
      textSimilarity a a = 1) ∧
    (∀ x : String, textSimilarity "" x = 0 ∧ textSimilarity x "" = 0) := by
  constructor
  · intro a ha hlen
    unfold textSimilarity
    rw [if_neg (by simp [ha])]
    exact seqRatioQ_self hlen
  · intro x
    constructor
    · unfold textSimilarity
      rw [if_pos (Or.inl rfl)]
    · unfold textSimilarity
      rw [if_pos (Or.inr rfl)]

theorem similarity_identity_amended_witness :
    ("normal wash cycle" : String) ≠ "" ∧
      (stripL (lowerL ("normal wash cycle" : String).data)).length < 200 ∧
      textSimilarity "normal wash cycle" "normal wash cycle" = 1 :=
  ⟨by decide, by decide,
    similarity_identity_amended.1 "normal wash cycle" (by decide) (by decide)⟩
